import Mathlib

/-!
Verification of the routing-tree core of the `httpdispatch` package.

The Go sources model URL paths as byte strings; we embed them as `List Nat`
(one `Nat` per byte).  Handlers are opaque in the source, so we embed them as
`Nat` and a node's `handle` field as `Option Nat` (`none` = Go `nil`).
Go panics during insertion become `Except.error` carrying the panic message
(as a byte string); the impossible "invalid node type" panic during lookup
and fuel exhaustion of the recursion become `none`.

All recursive functions walking the tree take an explicit fuel argument so
every definition is structurally recursive and evaluates by `decide`/`rfl`.
The public wrappers pass a fuel that is provably sufficient (the walk
descends into a child at every step, and `sizeOf` strictly decreases).
-/

set_option maxRecDepth 10000

namespace Httpdispatch

/-- Byte strings: Go strings are byte slices; one `Nat` per byte. -/
abbrev Str := List Nat

/-- Byte value of `/`. -/
def slashB : Nat := 47
/-- Byte value of `:`. -/
def colonB : Nat := 58
/-- Byte value of `*`. -/
def starB : Nat := 42
/-- Byte value of the single-quote character used in panic messages. -/
def quoteB : Nat := 39

/-- Helper to write ASCII byte strings in examples and messages. -/
def s2b (s : String) : Str := s.data.map Char.toNat

/-- Go `s[i]` (in-bounds in all reachable code paths; out-of-bounds Go would
panic, we default to 0 and the surrounding code reports an error). -/
def getB (s : Str) (i : Nat) : Nat := s.getD i 0

/-- Go `s[a:b]`. -/
def seg (s : Str) (a b : Nat) : Str := (s.take b).drop a

/-- Node kinds, named as in the source (`static`, `root`, `param`,
`wildcard`); the source uses `wildcard` for catch-all nodes. -/
inductive NodeType where
  | static
  | root
  | param
  | wildcard
  deriving DecidableEq, Repr

/-- A radix-tree node, mirroring the Go `node` struct.  The boolean
`wildcard` field is the `hasWildcardChild` flag of the spec. -/
inductive Node where
  | mk (typo : NodeType) (path : Str) (nparams : Nat) (indices : Str)
       (handle : Option Nat) (priority : Nat) (children : List Node)
       (wildcard : Bool)

def Node.typo : Node → NodeType | .mk t _ _ _ _ _ _ _ => t
def Node.path : Node → Str | .mk _ p _ _ _ _ _ _ => p
def Node.nparams : Node → Nat | .mk _ _ np _ _ _ _ _ => np
def Node.indices : Node → Str | .mk _ _ _ i _ _ _ _ => i
def Node.handle : Node → Option Nat | .mk _ _ _ _ h _ _ _ => h
def Node.priority : Node → Nat | .mk _ _ _ _ _ pr _ _ => pr
def Node.children : Node → List Node | .mk _ _ _ _ _ _ c _ => c
def Node.wildcard : Node → Bool | .mk _ _ _ _ _ _ _ w => w

@[simp] theorem Node.typo_mk (t : NodeType) (p : Str) (np : Nat) (ix : Str)
    (hd : Option Nat) (pr : Nat) (cs : List Node) (w : Bool) :
    (Node.mk t p np ix hd pr cs w).typo = t := rfl
@[simp] theorem Node.path_mk (t : NodeType) (p : Str) (np : Nat) (ix : Str)
    (hd : Option Nat) (pr : Nat) (cs : List Node) (w : Bool) :
    (Node.mk t p np ix hd pr cs w).path = p := rfl
@[simp] theorem Node.nparams_mk (t : NodeType) (p : Str) (np : Nat) (ix : Str)
    (hd : Option Nat) (pr : Nat) (cs : List Node) (w : Bool) :
    (Node.mk t p np ix hd pr cs w).nparams = np := rfl
@[simp] theorem Node.indices_mk (t : NodeType) (p : Str) (np : Nat) (ix : Str)
    (hd : Option Nat) (pr : Nat) (cs : List Node) (w : Bool) :
    (Node.mk t p np ix hd pr cs w).indices = ix := rfl
@[simp] theorem Node.handle_mk (t : NodeType) (p : Str) (np : Nat) (ix : Str)
    (hd : Option Nat) (pr : Nat) (cs : List Node) (w : Bool) :
    (Node.mk t p np ix hd pr cs w).handle = hd := rfl
@[simp] theorem Node.priority_mk (t : NodeType) (p : Str) (np : Nat) (ix : Str)
    (hd : Option Nat) (pr : Nat) (cs : List Node) (w : Bool) :
    (Node.mk t p np ix hd pr cs w).priority = pr := rfl
@[simp] theorem Node.children_mk (t : NodeType) (p : Str) (np : Nat) (ix : Str)
    (hd : Option Nat) (pr : Nat) (cs : List Node) (w : Bool) :
    (Node.mk t p np ix hd pr cs w).children = cs := rfl
@[simp] theorem Node.wildcard_mk (t : NodeType) (p : Str) (np : Nat) (ix : Str)
    (hd : Option Nat) (pr : Nat) (cs : List Node) (w : Bool) :
    (Node.mk t p np ix hd pr cs w).wildcard = w := rfl

/-- The zero value of the Go `node` struct. -/
def emptyNode : Node := .mk .static [] 0 [] none 0 [] false

instance : Inhabited Node := ⟨emptyNode⟩

/-- Update the `typo` (node kind) field. -/
def Node.setTypo (n : Node) (t : NodeType) : Node :=
  .mk t n.path n.nparams n.indices n.handle n.priority n.children n.wildcard

/-- Update the `path` field. -/
def Node.setPath (n : Node) (p : Str) : Node :=
  .mk n.typo p n.nparams n.indices n.handle n.priority n.children n.wildcard

/-- Update the `nparams` field. -/
def Node.setNparams (n : Node) (np : Nat) : Node :=
  .mk n.typo n.path np n.indices n.handle n.priority n.children n.wildcard

/-- Update the `indices` field. -/
def Node.setIndices (n : Node) (ix : Str) : Node :=
  .mk n.typo n.path n.nparams ix n.handle n.priority n.children n.wildcard

/-- Update the `handle` field. -/
def Node.setHandle (n : Node) (h : Option Nat) : Node :=
  .mk n.typo n.path n.nparams n.indices h n.priority n.children n.wildcard

/-- Update the `priority` field. -/
def Node.setPriority (n : Node) (pr : Nat) : Node :=
  .mk n.typo n.path n.nparams n.indices n.handle pr n.children n.wildcard

/-- Update the `children` field. -/
def Node.setChildren (n : Node) (cs : List Node) : Node :=
  .mk n.typo n.path n.nparams n.indices n.handle n.priority cs n.wildcard

/-- Update the `wildcard` (has-wildcard-child) flag. -/
def Node.setWildcard (n : Node) (w : Bool) : Node :=
  .mk n.typo n.path n.nparams n.indices n.handle n.priority n.children w

/-- A captured URL parameter (`Param` in the source): key and value. -/
abbrev Param := Str × Str

/-- `Params` is an ordered `Param` slice. -/
abbrev Params := List Param

/-- `Params.DefName` from the source: value and `true` of the first `Param`
whose key matches `name`; empty string and `false` otherwise. -/
def Params.DefName : Params → Str → Str × Bool
  | [], _ => ([], false)
  | (k, v) :: rest, name => if k = name then (v, true) else Params.DefName rest name

/-- `Params.ByName` from the source: first component of `DefName`. -/
def Params.ByName (ps : Params) (name : Str) : Str := (Params.DefName ps name).1

/-! ### Panic messages of the insertion engine (byte strings) -/

/-- A byte string wrapped in single quotes, as the panic messages do. -/
def quoted (s : Str) : Str := [quoteB] ++ s ++ [quoteB]

/-- The common trailing part naming the offending pattern. -/
def inPathMsg (abspath : Str) : Str := s2b (" in path ") ++ quoted abspath

/-- Panic message for a duplicate handler registration. -/
def dupMsg (abspath : Str) : Str :=
  s2b ("a handle is already registered for path ") ++ quoted abspath

/-- Panic message for a path segment conflicting with an existing wildcard. -/
def wildConflictMsg (up npath abspath : Str) : Str :=
  s2b ("path segment ") ++ quoted up ++ s2b (" conflicts with existing wildcard ") ++
    quoted npath ++ inPathMsg abspath

/-- Panic message for two wildcards in one segment. -/
def onlyOneWildMsg (tail abspath : Str) : Str :=
  s2b ("only one wildcard per path segment is allowed, has: ") ++ quoted tail ++
    inPathMsg abspath

/-- Panic message for a wildcard that would shadow existing children. -/
def wildChildrenMsg (w abspath : Str) : Str :=
  s2b ("wildcard route ") ++ quoted w ++
    s2b (" conflicts with existing children in path ") ++ quoted abspath

/-- Panic message for an unnamed wildcard. -/
def unnamedMsg (abspath : Str) : Str :=
  s2b ("wildcard must be named with a non-empty name in path ") ++ quoted abspath

/-- Panic message for a catch-all that is not the final segment. -/
def catchAllEndMsg (abspath : Str) : Str :=
  s2b ("catch-all routes are only allowed at the end of the path in path ") ++
    quoted abspath

/-- Panic message for a catch-all under an already-terminated slash route. -/
def catchAllRootMsg (abspath : Str) : Str :=
  s2b ("catch-all conflicts with existing handle for the path segment root in path ") ++
    quoted abspath

/-- Panic message for a catch-all not preceded by a slash. -/
def noSlashMsg (abspath : Str) : Str :=
  s2b ("no / before catch-all in path ") ++ quoted abspath

/-- Error used for a Go runtime out-of-range panic (a pattern starting with
a bare wildcard makes `insertChild` index position `-1`). -/
def oobMsg : Str := s2b ("runtime error: index out of range")

/-- Error marking fuel exhaustion; never reached for the fuel the public
wrappers pass. -/
def fuelMsg : Str := s2b ("fuel exhausted")

/-! ### Insertion -/

/-- Modelled from the spec: `countParams` is called by `register` but its
definition is not among the provided source files.  Per the spec (data
model, `nparams`; segment classifier) it counts the wildcard segments of a
pattern, i.e. the occurrences of `:` and `*` bytes. -/
def countParams (s : Str) : Nat := s.countP (fun c => c == colonB || c == starB)

/-- Length of the longest common byte prefix (the loop at the top of the
`register` walk). -/
def commonPrefixLen : Str → Str → Nat
  | a :: as, b :: bs => if a = b then commonPrefixLen as bs + 1 else 0
  | _, _ => 0

/-- The bubble loop of `incrementChildPriority`: move the child whose
priority was just bumped to `pr` leftwards while the left sibling's priority
is strictly smaller.  Returns the reordered children and the new position. -/
def bubbleLeft : List Node → Nat → Nat → List Node × Nat
  | cs, _, 0 => (cs, 0)
  | cs, pr, np + 1 =>
    if (cs.getD np default).priority < pr then
      bubbleLeft ((cs.set np (cs.getD (np + 1) default)).set (np + 1)
        (cs.getD np default)) pr np
    else (cs, np + 1)

/-- `incrementChildPriority` from the source: bump the priority of the child
at `pos`, bubble it leftwards to keep siblings sorted, and move its index
byte along.  Returns the updated node and the child's new position. -/
def incrementChildPriority (n : Node) (pos : Nat) : Node × Nat :=
  let c0 := n.children.getD pos default
  let cs0 := n.children.set pos (c0.setPriority (c0.priority + 1))
  let pr := c0.priority + 1
  let res := bubbleLeft cs0 pr pos
  let cs1 := res.1
  let newPos := res.2
  let ix :=
    if newPos ≠ pos then
      (n.indices.take newPos) ++ seg n.indices pos (pos + 1) ++
        ((n.indices.take pos).drop newPos) ++ n.indices.drop (pos + 1)
    else n.indices
  ((n.setChildren cs1).setIndices ix, newPos)

/-- The inner loop of `insertChild` finding the end of a wildcard name
(`/` or end of pattern); `none` is the two-wildcards-per-segment panic. -/
def scanWildEnd : Nat → Str → Nat → Option Nat
  | 0, _, _ => none
  | fuel + 1, uripath, e =>
    if e < uripath.length ∧ getB uripath e ≠ slashB then
      if getB uripath e = colonB ∨ getB uripath e = starB then none
      else scanWildEnd fuel uripath (e + 1)
    else some e

/-- `insertChild` from the source, as a fueled recursion over the scan
position `i`.  `n` is the node currently being extended, `off` the number
of bytes of `uripath` already assigned to enclosing nodes. -/
def insertChildF : Nat → Node → Nat → Str → Str → Nat → Nat → Nat → Except Str Node
  | 0, _, _, _, _, _, _, _ => .error fuelMsg
  | fuel + 1, n, numP, uripath, abspath, off, i, handle =>
    if numP = 0 then
      .ok ((n.setPath (uripath.drop off)).setHandle (some handle))
    else if i < uripath.length then
      let c := getB uripath i
      if c ≠ colonB ∧ c ≠ starB then
        insertChildF fuel n numP uripath abspath off (i + 1) handle
      else
        match scanWildEnd (uripath.length + 1) uripath (i + 1) with
        | none => .error (onlyOneWildMsg (uripath.drop i) abspath)
        | some e =>
          if n.children.length > 0 then .error (wildChildrenMsg (seg uripath i e) abspath)
          else if e - i < 2 then .error (unnamedMsg abspath)
          else if c = colonB then
            let n1 := if 0 < i then n.setPath (seg uripath off i) else n
            let off1 := if 0 < i then i else off
            let pc0 : Node := .mk .param [] numP [] none 1 [] false
            if e < uripath.length then
              let pc1 := pc0.setPath (seg uripath off1 e)
              let grand0 : Node := .mk .static [] (numP - 1) [] none 1 [] false
              match insertChildF fuel grand0 (numP - 1) uripath abspath e (i + 1) handle with
              | .ok g =>
                .ok ((n1.setChildren [pc1.setChildren [g]]).setWildcard true)
              | .error msg => .error msg
            else
              match insertChildF fuel pc0 (numP - 1) uripath abspath off1 (i + 1) handle with
              | .ok pc2 => .ok ((n1.setChildren [pc2]).setWildcard true)
              | .error msg => .error msg
          else
            if e ≠ uripath.length ∨ numP > 1 then .error (catchAllEndMsg abspath)
            else if n.path.length > 0 ∧ n.path.getLast? = some slashB then
              .error (catchAllRootMsg abspath)
            else if i = 0 then .error oobMsg
            else
              let i1 := i - 1
              if getB uripath i1 ≠ slashB then .error (noSlashMsg abspath)
              else
                let w2 : Node := .mk .wildcard (uripath.drop i1) 1 [] (some handle) 1 [] false
                let w1 : Node := .mk .wildcard [] 1 [] none 1 [w2] true
                .ok (((n.setPath (seg uripath off i1)).setIndices [getB uripath i1]).setChildren [w1])
    else .error oobMsg

/-- `insertChild` with its fuel filled in (the scan advances `i` every
step, so `uripath.length + 1` steps suffice). -/
def insertChild (n : Node) (numP : Nat) (uripath abspath : Str) (handle : Nat) :
    Except Str Node :=
  insertChildF (uripath.length + 1) n numP uripath abspath 0 0 handle

/-- The split step of `register`: the current node keeps the common prefix
`uripath.take i` and a fresh static child inherits the tail together with
the old children, indices, handle and wildcard flag. -/
def splitNode (n : Node) (uripath : Str) (i : Nat) : Node :=
  let child : Node := .mk .static (n.path.drop i)
    ((n.children.map Node.nparams).foldl max 0) n.indices n.handle (n.priority - 1)
    n.children n.wildcard
  ((((n.setChildren [child]).setIndices [getB n.path i]).setPath
    (uripath.take i)).setHandle none).setWildcard false

mutual
/-- Number of nodes of a tree (used only to furnish fuel for the walks:
every walk step descends into a child, so the node count bounds the
recursion depth). -/
def nodeSize : Node → Nat
  | .mk _ _ _ _ _ _ cs _ => nodesSize cs + 1
/-- Total node count of a list of trees. -/
def nodesSize : List Node → Nat
  | [] => 0
  | c :: cs => nodeSize c + nodesSize cs + 1
end

/-- First position of byte `c` in `indices` (the child-lookup scan). -/
def idxOf (ix : Str) (c : Nat) : Option Nat := ix.findIdx? (fun b => b == c)

/-- The `walk` loop of `register`, one recursive call per iteration.  The
node passed in already had its priority bumped by the caller (the walk bumps
each visited node's priority before entering it). -/
def registerF : Nat → Node → Str → Str → Nat → Nat → Except Str Node
  | 0, _, _, _, _, _ => .error fuelMsg
  | fuel + 1, n0, uripath, abspath, handle, maxP =>
    let n1 := if maxP > n0.nparams then n0.setNparams maxP else n0
    let i := commonPrefixLen uripath n1.path
    let n2 := if i < n1.path.length then splitNode n1 uripath i else n1
    if i < uripath.length then
      let up := uripath.drop i
      if n2.wildcard then
        let c0 := n2.children.getD 0 default
        let c1 := c0.setPriority (c0.priority + 1)
        let c2 := if maxP > c1.nparams then c1.setNparams maxP else c1
        if up.length ≥ c2.path.length ∧ up.take c2.path.length = c2.path ∧
            (c2.path.length ≥ up.length ∨ getB up c2.path.length = slashB) then
          match registerF fuel c2 up abspath handle (maxP - 1) with
          | .ok c3 => .ok (n2.setChildren (n2.children.set 0 c3))
          | .error e => .error e
        else .error (wildConflictMsg up c2.path abspath)
      else
        let c := getB up 0
        if n2.typo = .param ∧ c = slashB ∧ n2.children.length = 1 then
          let ch0 := n2.children.getD 0 default
          match registerF fuel (ch0.setPriority (ch0.priority + 1)) up abspath handle maxP with
          | .ok ch => .ok (n2.setChildren [ch])
          | .error e => .error e
        else
          match idxOf n2.indices c with
          | some j =>
            let res := incrementChildPriority n2 j
            match registerF fuel (res.1.children.getD res.2 default) up abspath handle maxP with
            | .ok ch => .ok (res.1.setChildren (res.1.children.set res.2 ch))
            | .error e => .error e
          | none =>
            if c ≠ colonB ∧ c ≠ starB then
              let n3 := (n2.setIndices (n2.indices ++ [c])).setChildren
                (n2.children ++ [emptyNode.setNparams maxP])
              let res := incrementChildPriority n3 (n3.indices.length - 1)
              match insertChild (res.1.children.getD res.2 default) maxP up abspath handle with
              | .ok ch => .ok (res.1.setChildren (res.1.children.set res.2 ch))
              | .error e => .error e
            else insertChild n2 maxP up abspath handle
    else
      if n2.handle.isSome then .error (dupMsg abspath)
      else .ok (n2.setHandle (some handle))

/-- `register` from the source: bump the root's priority, then either walk
the non-empty tree or classify the whole pattern into a fresh root chain. -/
def Node.register (n : Node) (uripath : Str) (handle : Nat) : Except Str Node :=
  let n1 := n.setPriority (n.priority + 1)
  if n1.path.length > 0 ∨ n1.children.length > 0 then
    registerF (nodeSize n1 + uripath.length + 1) n1 uripath uripath handle (countParams uripath)
  else
    insertChild (n1.setTypo .root) (countParams uripath) uripath uripath handle

/-! ### Lookup -/

/-- First index of byte `c` in `s`, or `s.length` when absent: the net
effect of `strings.IndexByte` followed by the `-1` fix-up in `resolve`. -/
def indexByteOrLen (s : Str) (c : Nat) : Nat := s.findIdx (fun b => b == c)

/-- The fall-through tail of the `resolve` loop ("Nothing found"): recommend
a trailing-slash redirect when the remaining path is `/`, or when the
current node's path is the remaining path plus a trailing slash and carries
a handle. -/
def resolveBottom (n : Node) (uripath : Str) (p : Params) :
    Option (Option Nat × Params × Bool) :=
  if uripath = [slashB] then some (none, p, true)
  else if n.path.length = uripath.length + 1 ∧ getB n.path uripath.length = slashB ∧
      uripath = n.path.take (n.path.length - 1) ∧ n.handle.isSome then
    some (n.handle, p, true)
  else some (none, p, false)

/-- `resolve` from the source (the `walk` loop), as a fueled recursion; `p`
accumulates captured parameters.  The result is
`some (handle, params, tsr)`; `none` stands for the unreachable
"invalid node type" panic (and fuel exhaustion, which the public wrapper's
fuel rules out). -/
def resolveF : Nat → Node → Str → Params → Option (Option Nat × Params × Bool)
  | 0, _, _, _ => none
  | fuel + 1, n, uripath, p =>
    if n.path.length < uripath.length then
      if uripath.take n.path.length = n.path then
        let up := uripath.drop n.path.length
        if n.wildcard = false then
          if up = [slashB] ∧ n.handle.isSome then some (n.handle, p, true)
          else
            match idxOf n.indices (getB up 0) with
            | some j => resolveF fuel (n.children.getD j default) up p
            | none => some (none, p, false)
        else
          let w := n.children.getD 0 default
          match w.typo with
          | .param =>
            let e := indexByteOrLen up slashB
            let p1 := p ++ [(w.path.drop 1, up.take e)]
            if e < up.length then
              if up.drop e = [slashB] ∧ w.handle.isSome then some (w.handle, p1, true)
              else if w.children.length > 0 then
                resolveF fuel (w.children.getD 0 default) (up.drop e) p1
              else some (none, p1, false)
            else if w.handle.isSome then some (w.handle, p1, false)
            else if w.children.length = 1 then
              let ch := w.children.getD 0 default
              if ch.path = [slashB] ∧ ch.handle.isSome then some (ch.handle, p1, true)
              else some (none, p1, false)
            else some (none, p1, false)
          | .wildcard =>
            let p1 := p ++ [(w.path.drop 2, up.drop 1)]
            some (w.handle, p1, false)
          | _ => none
      else resolveBottom n uripath p
    else if uripath = n.path then
      if n.handle.isSome then some (n.handle, p, false)
      else if uripath = [slashB] ∧ n.wildcard = true ∧ n.typo ≠ .root then
        some (none, p, true)
      else
        match idxOf n.indices slashB with
        | some j =>
          let ch := n.children.getD j default
          if ch.path.length = 1 ∧ ch.handle.isSome then some (ch.handle, p, true)
          else if ch.typo = .wildcard ∧ (ch.children.getD 0 default).handle.isSome then
            some ((ch.children.getD 0 default).handle, p, true)
          else some (none, p, false)
        | none => some (none, p, false)
    else resolveBottom n uripath p

/-- `resolve` with its fuel filled in: every loop iteration descends into a
child, so the node count bounds the number of iterations. -/
def Node.resolve (n : Node) (uripath : Str) : Option (Option Nat × Params × Bool) :=
  resolveF (nodeSize n + 1) n uripath []

/-! ### Helpers for stating claims -/

/-- Build a tree by registering the given `(pattern, handler)` list into an
empty root, propagating the first insertion panic. -/
def buildTree (ps : List (Str × Nat)) : Except Str Node :=
  ps.foldlM (fun t q => Node.register t q.1 q.2) emptyNode

/-- Whether an insertion result is a success. -/
def regOk : Except Str Node → Bool
  | .ok _ => true
  | .error _ => false

/-- Extract the tree from a successful insertion (empty node otherwise). -/
def getOk : Except Str Node → Node
  | .ok t => t
  | .error _ => emptyNode

/-- `m` contains `s` as a contiguous byte substring. -/
def containsStr (m s : Str) : Prop := ∃ l r, m = l ++ s ++ r

/-- The sortedness half of C6, as stated: children in non-increasing
priority order. -/
def prioritySorted : List Node → Bool
  | [] => true
  | [_] => true
  | a :: b :: r => decide (b.priority ≤ a.priority) && prioritySorted (b :: r)

/-- The indices half of C6, as stated: for every static child at position
`i`, the byte `indices[i]` exists and equals the first byte of that child's
path. -/
def indicesParallel (n : Node) : Bool :=
  (List.range n.children.length).all (fun i =>
    ((n.children.getD i default).typo != NodeType.static) ||
    (decide (i < n.indices.length) &&
      decide (getB n.indices i = getB (n.children.getD i default).path 0)))

/-- C7 as stated: the `wildcard` flag holds iff the node has at least one
child and the first child's kind is `param` or catch-all (`wildcard`). -/
def wildcardFlagAsClaimed (n : Node) : Bool :=
  n.wildcard ==
    (decide (n.children.length > 0) &&
      ((n.children.getD 0 default).typo == NodeType.param ||
        (n.children.getD 0 default).typo == NodeType.wildcard))

/-- C10: `ByName` returns the value of the first pair whose key equals
`name`, and the empty string when there is none; `DefName` additionally
reports whether a pair was found. -/
theorem byName_first_match (ps : Params) (name : Str) :
    Params.DefName ps name =
      ((ps.find? (fun q => q.1 = name)).map (fun q => (q.2, true))).getD ([], false) ∧
    Params.ByName ps name =
      ((ps.find? (fun q => q.1 = name)).map (fun q => q.2)).getD [] := by
  induction ps with
  | nil => exact ⟨rfl, rfl⟩
  | cons hd tl ih =>
    obtain ⟨ih1, ih2⟩ := ih
    by_cases h : hd.1 = name
    · constructor
      · simp [Params.DefName, List.find?, h]
      · simp [Params.ByName, Params.DefName, List.find?, h]
    · constructor
      · simpa [Params.DefName, List.find?, h] using ih1
      · simpa [Params.ByName, Params.DefName, List.find?, h] using ih2

/-! ### Symbolic evaluation lemmas for single-pattern insertion -/

/-- `s` contains no wildcard byte (`:` or `*`). -/
def noWild (s : Str) : Prop := ∀ c ∈ s, c ≠ colonB ∧ c ≠ starB

instance : DecidablePred noWild := fun s => by
  unfold noWild; infer_instance

/-- `s` contains no slash and no wildcard byte (a legal wildcard name). -/
def wildName (s : Str) : Prop := s ≠ [] ∧ ∀ c ∈ s, c ≠ slashB ∧ c ≠ colonB ∧ c ≠ starB

instance : DecidablePred wildName := fun s => by
  unfold wildName; infer_instance

theorem countParams_eq_zero (s : Str) (h : noWild s) : countParams s = 0 := by
  unfold countParams
  rw [List.countP_eq_zero]
  intro a ha
  obtain ⟨h1, h2⟩ := h a ha
  simp [h1, h2]

theorem countParams_append (s t : Str) :
    countParams (s ++ t) = countParams s + countParams t := by
  unfold countParams; rw [List.countP_append]

theorem insertChildF_skip (fuel : Nat) (n : Node) (numP : Nat)
    (uripath abspath : Str) (off i handle : Nat) (hnp : numP ≠ 0)
    (hi : i < uripath.length)
    (hc : getB uripath i ≠ colonB ∧ getB uripath i ≠ starB) :
    insertChildF (fuel + 1) n numP uripath abspath off i handle =
      insertChildF fuel n numP uripath abspath off (i + 1) handle := by
  simp only [insertChildF]
  rw [if_neg hnp, if_pos hi, if_pos hc]

theorem insertChildF_skipRun (k : Nat) : ∀ (fuel : Nat) (n : Node) (numP : Nat)
    (uripath abspath : Str) (off i handle : Nat), numP ≠ 0 →
    (∀ j, j < k → i + j < uripath.length ∧
      getB uripath (i + j) ≠ colonB ∧ getB uripath (i + j) ≠ starB) →
    insertChildF (fuel + k) n numP uripath abspath off i handle =
      insertChildF fuel n numP uripath abspath off (i + k) handle := by
  induction k with
  | zero => intro fuel n numP uripath abspath off i handle _ _; rfl
  | succ k ih =>
    intro fuel n numP uripath abspath off i handle hnp hall
    obtain ⟨hi, hc⟩ := hall 0 (Nat.succ_pos k)
    rw [show fuel + (k + 1) = (fuel + k) + 1 by omega,
      insertChildF_skip (fuel + k) n numP uripath abspath off i handle hnp
        (by simpa using hi) (by simpa using hc),
      ih fuel n numP uripath abspath off (i + 1) handle hnp
        (fun j hj => by
          have h2 := hall (j + 1) (by omega)
          rw [show i + 1 + j = i + (j + 1) by omega]
          exact h2),
      show i + 1 + k = i + (k + 1) by omega]

theorem scanWildEnd_run (k : Nat) : ∀ (fuel : Nat) (uripath : Str) (e : Nat),
    e + k = uripath.length →
    (∀ j, j < k → getB uripath (e + j) ≠ slashB ∧
      getB uripath (e + j) ≠ colonB ∧ getB uripath (e + j) ≠ starB) →
    scanWildEnd (fuel + k + 1) uripath e = some uripath.length := by
  induction k with
  | zero =>
    intro fuel uripath e he _
    simp only [Nat.add_zero] at he
    simp only [scanWildEnd]
    rw [if_neg (fun hcon => absurd hcon.1 (by omega)), he]
  | succ k ih =>
    intro fuel uripath e he hall
    obtain ⟨h1, h2, h3⟩ := hall 0 (Nat.succ_pos k)
    simp only [Nat.add_zero] at h1 h2 h3
    rw [show fuel + (k + 1) + 1 = (fuel + k + 1) + 1 by omega]
    simp only [scanWildEnd]
    rw [if_pos ⟨by omega, h1⟩, if_neg (by simp [h2, h3])]
    exact ih fuel uripath (e + 1) (by omega)
      (fun j hj => by
        have := hall (j + 1) (by omega)
        rw [show e + 1 + j = e + (j + 1) by omega]
        exact this)

theorem getB_append_left (s t : Str) (j : Nat) (hj : j < s.length) :
    getB (s ++ t) j = getB s j :=
  List.getD_append s t 0 j hj

theorem getB_append_right (s t : Str) (j : Nat) (hj : s.length ≤ j) :
    getB (s ++ t) j = getB t (j - s.length) :=
  List.getD_append_right s t 0 j hj

theorem getB_mem (s : Str) (j : Nat) (hj : j < s.length) : getB s j ∈ s := by
  rw [getB, List.getD_eq_getElem s 0 hj]
  exact List.getElem_mem hj

/-- The tree built by inserting a single catch-all pattern
`pre ++ "/*" ++ name` into an empty tree: the root keeps the static part,
an intermediate catch-all node with empty path hangs under index `/`, and
the catch-all leaf `"/*" ++ name` carries the handler. -/
def catchAllTree (pre name : Str) (h : Nat) : Node :=
  .mk .root pre 0 [slashB] none 1
    [.mk .wildcard [] 1 [] none 1
      [.mk .wildcard ([slashB, starB] ++ name) 1 [] (some h) 1 [] false] true] false

theorem register_catchall (pre name : Str) (h : Nat)
    (hpre : noWild pre) (hname : wildName name) :
    Node.register emptyNode (pre ++ ([slashB, starB] ++ name)) h =
      .ok (catchAllTree pre name h) := by
  have hlen : (pre ++ ([slashB, starB] ++ name)).length = pre.length + 2 + name.length := by
    simp [List.length_append]; omega
  have hnpos : 1 ≤ name.length := List.length_pos.mpr hname.1
  have hgetpre : ∀ j, j < pre.length →
      getB (pre ++ ([slashB, starB] ++ name)) j = getB pre j :=
    fun j hj => getB_append_left pre ([slashB, starB] ++ name) j hj
  have hgetslash : getB (pre ++ ([slashB, starB] ++ name)) pre.length = slashB := by
    rw [getB_append_right pre ([slashB, starB] ++ name) pre.length (Nat.le_refl _)]
    simp [getB]
  have hgetstar : getB (pre ++ ([slashB, starB] ++ name)) (pre.length + 1) = starB := by
    rw [getB_append_right pre ([slashB, starB] ++ name) (pre.length + 1) (by omega)]
    simp [getB]
  have hgetname : ∀ j, j < name.length →
      getB (pre ++ ([slashB, starB] ++ name)) (pre.length + 2 + j) = getB name j := by
    intro j hj
    rw [getB_append_right pre ([slashB, starB] ++ name) (pre.length + 2 + j) (by omega),
      show pre.length + 2 + j - pre.length = 2 + j by omega]
    show getB (slashB :: starB :: name) (2 + j) = getB name j
    rw [show 2 + j = j + 2 by omega]
    simp [getB, List.getD]
  have hcp : countParams (pre ++ ([slashB, starB] ++ name)) = 1 := by
    rw [countParams_append, countParams_eq_zero pre hpre, countParams_append,
      countParams_eq_zero name (fun c hc => ⟨(hname.2 c hc).2.1, (hname.2 c hc).2.2⟩)]
    decide
  have hstep : Node.register emptyNode (pre ++ ([slashB, starB] ++ name)) h =
      insertChild (Node.mk .root [] 0 [] none 1 [] false)
        (countParams (pre ++ ([slashB, starB] ++ name)))
        (pre ++ ([slashB, starB] ++ name)) (pre ++ ([slashB, starB] ++ name)) h := rfl
  rw [hstep, hcp]
  unfold insertChild
  rw [hlen, show pre.length + 2 + name.length + 1 = (name.length + 2) + (pre.length + 1) by omega,
    insertChildF_skipRun (pre.length + 1) (name.length + 2) _ 1
      (pre ++ ([slashB, starB] ++ name)) (pre ++ ([slashB, starB] ++ name)) 0 0 h
      (by omega)
      (fun j hj => by
        refine ⟨by rw [hlen]; omega, ?_⟩
        rcases Nat.lt_or_ge j pre.length with hlt | hge
        · rw [Nat.zero_add, hgetpre j hlt]
          exact hpre _ (getB_mem pre j hlt)
        · have hje : j = pre.length := by omega
          rw [Nat.zero_add, hje, hgetslash]
          exact ⟨by decide, by decide⟩),
    Nat.zero_add]
  have hseg : seg (pre ++ ([slashB, starB] ++ name)) 0 pre.length = pre := by
    unfold seg
    rw [List.drop_zero]
    exact List.take_left pre _
  have hdrop : (pre ++ ([slashB, starB] ++ name)).drop pre.length = [slashB, starB] ++ name :=
    List.drop_left pre _
  have hscan : scanWildEnd ((pre ++ ([slashB, starB] ++ name)).length + 1)
      (pre ++ ([slashB, starB] ++ name)) (pre.length + 1 + 1) =
      some (pre ++ ([slashB, starB] ++ name)).length := by
    rw [show (pre ++ ([slashB, starB] ++ name)).length + 1 =
        (pre.length + 2) + name.length + 1 by rw [hlen]]
    rw [show pre.length + 1 + 1 = pre.length + 2 by omega]
    exact scanWildEnd_run name.length (pre.length + 2) (pre ++ ([slashB, starB] ++ name))
      (pre.length + 2) (by omega)
      (fun j hj => by
        rw [hgetname j hj]
        have hm := getB_mem name j hj
        exact ⟨(hname.2 _ hm).1, (hname.2 _ hm).2.1, (hname.2 _ hm).2.2⟩)
  have harith1 : pre.length + 1 < (pre ++ ([slashB, starB] ++ name)).length := by
    rw [hlen]; omega
  have harith2 : ¬((pre ++ ([slashB, starB] ++ name)).length - (pre.length + 1) < 2) := by
    rw [hlen]; omega
  have harith3 : ¬((pre ++ ([slashB, starB] ++ name)).length ≠
      (pre ++ ([slashB, starB] ++ name)).length ∨ (1 : Nat) > 1) := by
    simp
  simp only [List.cons_append, List.nil_append, List.length_append, List.length_cons] at hgetslash hgetstar hseg hdrop hscan harith1 harith2 harith3
  show insertChildF ((name.length + 1) + 1) _ 1 _ _ 0 (pre.length + 1) h = _
  simp only [insertChildF, hscan, hgetstar, hgetslash, harith1, harith2, harith3,
    hseg, hdrop]
  simp [emptyNode, Node.setPriority, Node.setTypo, Node.setPath, Node.setIndices,
    Node.setChildren, Node.setHandle, Node.setWildcard, Node.setNparams,
    Node.typo, Node.path, Node.nparams, Node.indices, Node.handle, Node.priority,
    Node.children, Node.wildcard, catchAllTree, hseg, hdrop, hgetslash, hgetstar,
    hscan, harith1, harith2, harith3, show starB ≠ colonB by decide]

/-- Node count of the single-catch-all tree is constant. -/
theorem nodeSize_catchAllTree (pre name : Str) (h : Nat) :
    nodeSize (catchAllTree pre name h) = 5 := by
  simp [catchAllTree, nodeSize, nodesSize]

theorem resolve_catchAllTree (pre name s : Str) (h : Nat) :
    Node.resolve (catchAllTree pre name h) (pre ++ ([slashB] ++ s)) =
      some (some h, [(name, s)], false) := by
  have htake : (pre ++ ([slashB] ++ s)).take pre.length = pre := List.take_left pre _
  have hdrop : (pre ++ ([slashB] ++ s)).drop pre.length = [slashB] ++ s :=
    List.drop_left pre _
  have hidx : idxOf [slashB] slashB = some 0 := by decide
  unfold Node.resolve
  rw [show nodeSize (catchAllTree pre name h) = 5 from nodeSize_catchAllTree pre name h]
  simp only [List.cons_append, List.nil_append] at htake hdrop
  simp [resolveF, catchAllTree, Node.path, Node.typo, Node.nparams, Node.indices,
    Node.handle, Node.priority, Node.children, Node.wildcard, htake, hdrop, hidx,
    getB, indexByteOrLen]

/-- Rendering of the wildcard part of a pattern: each pair `(nm, tl)` stands
for a `:nm` parameter segment followed by the literal tail `tl` (which, when
non-empty, starts with `/`). -/
def renderPs : List (Str × Str) → Str
  | [] => []
  | (nm, tl) :: rest => (colonB :: nm) ++ tl ++ renderPs rest

/-- Well-formedness of the parameter list of a pattern, per the pattern
grammar: names are legal wildcard names, tails are wildcard-free, a
non-empty tail starts with `/`, and only the final tail may be empty. -/
def goodPs : List (Str × Str) → Prop
  | [] => True
  | (nm, tl) :: rest =>
    wildName nm ∧ noWild tl ∧ (tl = [] → rest = []) ∧
      (tl ≠ [] → getB tl 0 = slashB) ∧ goodPs rest

/-- The chain of nodes `insertChild` builds below the static head for the
parameter list `ps` (with `numP` wildcards remaining and handler `h`). -/
def chainPs (h : Nat) : Nat → List (Str × Str) → Node
  | numP, (nm, tl) :: rest =>
    if tl = [] then .mk .param (colonB :: nm) numP [] (some h) 1 [] false
    else
      .mk .param (colonB :: nm) numP [] none 1
        [.mk .static tl (numP - 1) []
          (if rest = [] then some h else none) 1
          (if rest = [] then [] else [chainPs h (numP - 1) rest])
          (decide (rest ≠ []))] false
  | _, [] => default

/-- The whole tree built by inserting the single pattern
`head ++ renderPs ps` into an empty tree. -/
def singleTree (head : Str) (ps : List (Str × Str)) (h : Nat) : Node :=
  match ps with
  | [] => .mk .root head 0 [] (some h) 1 [] false
  | _ => .mk .root head 0 [] none 1 [chainPs h ps.length ps] true

/-- The parameters captured when the registered pattern itself is looked up
literally: each `:nm` segment matches its own text. -/
def literalParams (ps : List (Str × Str)) : Params :=
  ps.map (fun q => (q.1, colonB :: q.1))

theorem setPath_self (n : Node) (hp : n.path = []) : n.setPath [] = n := by
  cases n
  simp_all [Node.setPath, Node.path]

theorem getB_drop (s : Str) (i j : Nat) : getB (s.drop i) j = getB s (i + j) := by
  simp [getB, List.getD, List.getElem?_drop]

theorem getB_head_drop (s : Str) (i : Nat) : getB s i = getB (s.drop i) 0 := by
  rw [getB_drop s i 0, Nat.add_zero]

theorem getB_of_drop_cons (s : Str) (i : Nat) (c : Nat) (r : Str)
    (hd : s.drop i = c :: r) : getB s i = c := by
  have := getB_drop s i 0
  rw [hd] at this
  simpa [getB] using this.symm

theorem drop_succ_of_drop_cons (s : Str) (i : Nat) (c : Nat) (r : Str)
    (hd : s.drop i = c :: r) : s.drop (i + 1) = r := by
  rw [← List.drop_drop 1 i s, hd]
  rfl

theorem length_lt_of_drop_cons (s : Str) (i : Nat) (c : Nat) (r : Str)
    (hd : s.drop i = c :: r) : i < s.length := by
  by_contra hcon
  rw [List.drop_eq_nil_of_le (by omega)] at hd
  exact List.noConfusion hd

/-- `s[off:i]` recovered from the two drop decompositions. -/
theorem seg_eq_of_drop (s : Str) (off i : Nat) (X R : Str)
    (h1 : s.drop off = X ++ R) (h3 : off + X.length = i) :
    seg s off i = X := by
  have hseg : seg s off i = (s.drop off).take (i - off) := by
    unfold seg
    rw [List.drop_take i off s]
  rw [hseg, h1, show i - off = X.length by omega]
  exact List.take_left X R

theorem scanWildEnd_stop (k : Nat) : ∀ (fuel : Nat) (uripath : Str) (e : Nat),
    (∀ j, j < k → e + j < uripath.length ∧ getB uripath (e + j) ≠ slashB ∧
      getB uripath (e + j) ≠ colonB ∧ getB uripath (e + j) ≠ starB) →
    (e + k = uripath.length ∨ getB uripath (e + k) = slashB) →
    scanWildEnd (fuel + k + 1) uripath e = some (e + k) := by
  induction k with
  | zero =>
    intro fuel uripath e _ hstop
    simp only [Nat.add_zero] at hstop ⊢
    simp only [scanWildEnd]
    rcases hstop with hlen | hslash
    · rw [if_neg (fun hcon => absurd hcon.1 (by omega))]
    · by_cases he : e < uripath.length
      · rw [if_neg (fun hcon => absurd hslash hcon.2)]
      · rw [if_neg (fun hcon => absurd hcon.1 he)]
  | succ k ih =>
    intro fuel uripath e hall hstop
    obtain ⟨h1, h2, h3, h4⟩ := hall 0 (Nat.succ_pos k)
    simp only [Nat.add_zero] at h1 h2 h3 h4
    rw [show fuel + (k + 1) + 1 = (fuel + k + 1) + 1 by omega]
    simp only [scanWildEnd]
    rw [if_pos ⟨h1, h2⟩, if_neg (by simp [h3, h4])]
    rw [show e + (k + 1) = (e + 1) + k by omega] at hstop ⊢
    exact ih fuel uripath (e + 1)
      (fun j hj => by
        have hx := hall (j + 1) (by omega)
        rw [show e + 1 + j = e + (j + 1) by omega]
        exact hx) hstop

theorem insertChildF_chain (ps : List (Str × Str)) :
    ∀ (F : Nat) (n : Node) (uripath abspath mid : Str) (off i h : Nat),
    goodPs ps → ps ≠ [] →
    n.children = [] → n.path = [] →
    uripath.drop i = renderPs ps →
    uripath.drop off = mid ++ renderPs ps →
    off + mid.length = i →
    insertChildF ((uripath.length - i) + 1 + F) n ps.length uripath abspath off i h =
      .ok (((n.setPath mid).setChildren [chainPs h ps.length ps]).setWildcard true) := by
  induction ps with
  | nil => intro _ _ _ _ _ _ _ _ _ hne; exact absurd rfl hne
  | cons hd rest ih =>
    intro F n uripath abspath mid off i h hgood _ hch hpath hdropi hdropoff hoffmid
    obtain ⟨nm, tl⟩ := hd
    obtain ⟨hnm, htlw, htlrest, htlslash, hgrest⟩ := hgood
    have hnmpos : 1 ≤ nm.length := List.length_pos.mpr hnm.1
    have hdropi' : uripath.drop i = colonB :: (nm ++ (tl ++ renderPs rest)) := by
      rw [hdropi]; simp [renderPs]
    have hilen : i < uripath.length :=
      length_lt_of_drop_cons uripath i _ _ hdropi'
    have hlensub : uripath.length - i = 1 + nm.length + tl.length + (renderPs rest).length := by
      have := congrArg List.length hdropi'
      simp [List.length_drop] at this
      omega
    have hci : getB uripath i = colonB := getB_of_drop_cons uripath i _ _ hdropi'
    have hdropi1 : uripath.drop (i + 1) = nm ++ (tl ++ renderPs rest) :=
      drop_succ_of_drop_cons uripath i _ _ hdropi'
    have hdropE : uripath.drop (i + 1 + nm.length) = tl ++ renderPs rest := by
      rw [show i + 1 + nm.length = (i + 1) + nm.length by omega,
        ← List.drop_drop nm.length (i + 1) uripath, hdropi1]
      exact List.drop_left nm _
    have hgetnm : ∀ j, j < nm.length → getB uripath (i + 1 + j) = getB nm j := by
      intro j hj
      rw [show i + 1 + j = (i + 1) + j by omega, ← getB_drop, hdropi1]
      exact getB_append_left nm _ j hj
    have hscan : scanWildEnd (uripath.length + 1) uripath (i + 1) =
        some (i + 1 + nm.length) := by
      rw [show uripath.length + 1 = (uripath.length - nm.length) + nm.length + 1 by omega]
      refine scanWildEnd_stop nm.length (uripath.length - nm.length) uripath (i + 1)
        (fun j hj => ?_) ?_
      · refine ⟨by omega, ?_⟩
        rw [hgetnm j hj]
        have hm := getB_mem nm j hj
        exact ⟨(hnm.2 _ hm).1, (hnm.2 _ hm).2.1, (hnm.2 _ hm).2.2⟩
      · by_cases htl : tl = []
        · have hre := htlrest htl
          left
          rw [htl, hre] at hlensub
          simp [renderPs] at hlensub
          omega
        · right
          rw [getB_head_drop uripath (i + 1 + nm.length), hdropE,
            getB_append_left tl _ 0 (List.length_pos.mpr htl)]
          exact htlslash htl
    have hn1 : (if 0 < i then n.setPath (seg uripath off i) else n) = n.setPath mid := by
      by_cases h0 : 0 < i
      · rw [if_pos h0, seg_eq_of_drop uripath off i mid (renderPs ((nm, tl) :: rest))
          hdropoff hoffmid]
      · rw [if_neg h0]
        have hi0 : i = 0 := by omega
        have hmid : mid = [] := by
          have : mid.length = 0 := by omega
          exact List.length_eq_zero.mp this
        rw [hmid, setPath_self n hpath]
    have hoff1 : (if 0 < i then i else off) = i := by
      by_cases h0 : 0 < i
      · rw [if_pos h0]
      · rw [if_neg h0]; omega
    rw [show (uripath.length - i) + 1 + F = ((uripath.length - i) + F) + 1 by omega]
    simp only [insertChildF, List.length_cons]
    rw [if_neg (by omega), if_pos hilen, if_neg (by simp [hci]), hscan]
    simp only []
    rw [if_neg (by rw [hch]; simp), if_neg (by omega), if_pos hci, hn1, hoff1]
    by_cases htl : tl = []
    · have hre := htlrest htl
      have hieq : i + 1 + nm.length = uripath.length := by
        rw [htl, hre] at hlensub
        simp [renderPs] at hlensub
        omega
      rw [if_neg (by omega)]
      rw [show (uripath.length - i) + F = ((uripath.length - i) + F - 1) + 1 by omega]
      simp only [insertChildF]
      rw [if_pos (by simp [hre])]
      have hdropoff1 : uripath.drop i = colonB :: nm := by
        rw [hdropi', htl, hre]
        simp [renderPs]
      rw [hdropoff1]
      simp only [chainPs, htl, hre, Node.setPath, Node.setHandle, Node.setChildren,
        Node.setWildcard, if_pos rfl]
      rfl
    · have htlpos : 1 ≤ tl.length := List.length_pos.mpr htl
      rw [if_pos (by omega)]
      have hsegname : seg uripath i (i + 1 + nm.length) = colonB :: nm := by
        refine seg_eq_of_drop uripath i (i + 1 + nm.length) (colonB :: nm)
          (tl ++ renderPs rest) (by rw [hdropi']; simp) (by simp; omega)
      rw [hsegname]
      by_cases hre : rest = []
      · rw [show (uripath.length - i) + F = ((uripath.length - i) + F - 1) + 1 by omega]
        simp only [insertChildF]
        rw [if_pos (by simp [hre]), hdropE, hre]
        simp only [renderPs, List.append_nil]
        simp only [chainPs, if_neg htl, hre, if_pos rfl]
        simp [Node.setPath, Node.setChildren, Node.setWildcard, Node.setHandle]
      · have hrelen : 1 ≤ (renderPs rest).length := by
          obtain ⟨⟨nm2, tl2⟩, rest2, hr2⟩ := List.exists_cons_of_ne_nil hre
          rw [hr2]
          simp [renderPs]
        have hskipfuel : (uripath.length - i) + F =
            ((uripath.length - (i + 1 + nm.length + tl.length)) + 1 + F) +
              (nm.length + tl.length) := by
          omega
        rw [hskipfuel,
          insertChildF_skipRun (nm.length + tl.length) _ _ _ uripath abspath _ (i + 1) h
            (by have := List.length_pos.mpr hre; omega)
            (fun j hj => by
              refine ⟨by omega, ?_⟩
              rcases Nat.lt_or_ge j nm.length with hlt | hge
              · rw [hgetnm j hlt]
                have hm := getB_mem nm j hlt
                exact ⟨(hnm.2 _ hm).2.1, (hnm.2 _ hm).2.2⟩
              · have : getB uripath (i + 1 + j) = getB tl (j - nm.length) := by
                  rw [show i + 1 + j = (i + 1 + nm.length) + (j - nm.length) by omega,
                    ← getB_drop, hdropE]
                  exact getB_append_left tl _ (j - nm.length) (by omega)
                rw [this]
                have hm := getB_mem tl (j - nm.length) (by omega)
                exact htlw _ hm)]
        rw [show i + 1 + (nm.length + tl.length) = i + 1 + nm.length + tl.length by omega]
        simp only [Nat.add_sub_cancel]
        have hdropI' : uripath.drop (i + 1 + nm.length + tl.length) = renderPs rest := by
          rw [show i + 1 + nm.length + tl.length = (i + 1 + nm.length) + tl.length by omega,
            ← List.drop_drop tl.length (i + 1 + nm.length) uripath, hdropE]
          exact List.drop_left tl _
        rw [ih F (Node.mk .static [] rest.length [] none 1 [] false)
          uripath abspath tl (i + 1 + nm.length) (i + 1 + nm.length + tl.length) h
          hgrest hre (by simp) (by simp) hdropI' (by rw [hdropE]) (by omega)]
        simp only [chainPs, if_neg htl, if_neg hre]
        simp [Node.setPath, Node.setChildren, Node.setWildcard, hre]

theorem indexByteOrLen_none (l : Str) (c : Nat) (h : ∀ a ∈ l, a ≠ c) :
    indexByteOrLen l c = l.length := by
  induction l with
  | nil => rfl
  | cons a t ih =>
    unfold indexByteOrLen at ih ⊢
    simp [List.findIdx_cons, beq_eq_false_iff_ne.mpr (h a (by simp))]
    exact fun x hx => h x (by simp [hx])

theorem indexByteOrLen_first (A B : Str) (c : Nat) (hA : ∀ a ∈ A, a ≠ c)
    (hB : getB B 0 = c) (hBne : B ≠ []) :
    indexByteOrLen (A ++ B) c = A.length := by
  induction A with
  | nil =>
    obtain ⟨b, t, rfl⟩ := List.exists_cons_of_ne_nil hBne
    simp [getB] at hB
    unfold indexByteOrLen
    simp [List.findIdx_cons, hB]
  | cons a t ih =>
    unfold indexByteOrLen at ih ⊢
    simp only [List.cons_append, List.findIdx_cons,
      beq_eq_false_iff_ne.mpr (hA a (by simp)), cond_false, List.length_cons]
    rw [ih (fun x hx => hA x (by simp [hx]))]

theorem nodeSize_chainPs_ge (h : Nat) (ps : List (Str × Str)) :
    ∀ (numP : Nat), goodPs ps → ps ≠ [] → ps.length ≤ nodeSize (chainPs h numP ps) := by
  induction ps with
  | nil => intro _ _ hne; exact absurd rfl hne
  | cons q rest ih =>
    intro numP hgood _
    obtain ⟨nm, tl⟩ := q
    obtain ⟨_, _, htlrest, _, hgrest⟩ := hgood
    by_cases htl : tl = []
    · have hre := htlrest htl
      simp [chainPs, htl, hre, nodeSize, nodesSize]
    · by_cases hre : rest = []
      · simp [chainPs, htl, hre, nodeSize, nodesSize]
      · have := ih numP.pred hgrest hre
        simp only [chainPs, if_neg htl, if_neg hre]
        simp only [nodeSize, nodesSize, List.length_cons]
        have h2 := ih (numP - 1) hgrest hre
        omega

/-- The parameters captured by a literal lookup of the registered pattern:
`literalParams` unfolds on cons. -/
theorem literalParams_cons (nm tl : Str) (rest : List (Str × Str)) :
    literalParams ((nm, tl) :: rest) = (nm, colonB :: nm) :: literalParams rest := rfl

theorem countParams_renderPs (ps : List (Str × Str)) (hps : goodPs ps) :
    countParams (renderPs ps) = ps.length := by
  induction ps with
  | nil => rfl
  | cons q rest ih =>
    obtain ⟨nm, tl⟩ := q
    obtain ⟨hnm, htlw, _, _, hgrest⟩ := hps
    show countParams ((colonB :: nm) ++ tl ++ renderPs rest) = rest.length + 1
    rw [countParams_append, countParams_append,
      countParams_eq_zero tl htlw, ih hgrest,
      show countParams (colonB :: nm) = 1 + countParams nm by
        unfold countParams; simp [List.countP_cons]; omega,
      countParams_eq_zero nm (fun c hc => ⟨(hnm.2 c hc).2.1, (hnm.2 c hc).2.2⟩)]
    omega

theorem register_single (head : Str) (ps : List (Str × Str)) (h : Nat)
    (hh : noWild head) (hps : goodPs ps) :
    Node.register emptyNode (head ++ renderPs ps) h = .ok (singleTree head ps h) := by
  have hstep : Node.register emptyNode (head ++ renderPs ps) h =
      insertChild (Node.mk .root [] 0 [] none 1 [] false)
        (countParams (head ++ renderPs ps))
        (head ++ renderPs ps) (head ++ renderPs ps) h := rfl
  have hcp : countParams (head ++ renderPs ps) = ps.length := by
    rw [countParams_append, countParams_eq_zero head hh, countParams_renderPs ps hps]
    omega
  rw [hstep, hcp]
  unfold insertChild
  cases ps with
  | nil =>
    simp [insertChildF, singleTree, renderPs, Node.setPath, Node.setHandle]
  | cons q rest =>
    have hlen : (head ++ renderPs (q :: rest)).length =
        head.length + (renderPs (q :: rest)).length := by simp
    have hskip : (head ++ renderPs (q :: rest)).length + 1 =
        (((head ++ renderPs (q :: rest)).length - head.length) + 1 + 0) + head.length := by
      omega
    rw [hskip,
      insertChildF_skipRun head.length _ _ _ (head ++ renderPs (q :: rest))
        (head ++ renderPs (q :: rest)) 0 0 h (by simp)
        (fun j hj => by
          refine ⟨by rw [hlen]; omega, ?_⟩
          rw [Nat.zero_add, getB_append_left head _ j hj]
          exact hh _ (getB_mem head j hj)),
      Nat.zero_add]
    rw [insertChildF_chain (q :: rest) 0 _ (head ++ renderPs (q :: rest))
      (head ++ renderPs (q :: rest)) head 0 head.length h hps (by simp)
      (by simp) (by simp) (List.drop_left head _) (by rw [List.drop_zero]) (by omega)]
    simp [singleTree, Node.setPath, Node.setChildren, Node.setWildcard]

theorem chain_resolve_exact (ps : List (Str × Str)) :
    ∀ (h : Nat) (p : Params) (fuel : Nat) (n : Node) (P : Str),
    goodPs ps → ps ≠ [] →
    n.path = P → n.wildcard = true → n.children = [chainPs h ps.length ps] →
    ps.length ≤ fuel →
    resolveF (fuel + 1) n (P ++ renderPs ps) p =
      some (some h, p ++ literalParams ps, false) := by
  induction ps with
  | nil => intro h p fuel n P _ hne; exact absurd rfl hne
  | cons q rest ih =>
    intro h p fuel n P hgood _ hpath hw hch hfuel
    obtain ⟨nm, tl⟩ := q
    obtain ⟨hnm, htlw, htlrest, htlslash, hgrest⟩ := hgood
    have hnmpos : 1 ≤ nm.length := List.length_pos.mpr hnm.1
    have hnoslash : ∀ a ∈ colonB :: nm, a ≠ slashB := by
      intro a ha
      rcases List.mem_cons.mp ha with hc | hm
      · rw [hc]; decide
      · exact fun hcon => ((hnm.2 a hm).1) hcon
    have htake : (P ++ renderPs ((nm, tl) :: rest)).take P.length = P :=
      List.take_left P _
    have hdropP : (P ++ renderPs ((nm, tl) :: rest)).drop P.length =
        renderPs ((nm, tl) :: rest) := List.drop_left P _
    have hlt : P.length < (P ++ renderPs ((nm, tl) :: rest)).length := by
      simp only [List.length_append, renderPs, List.length_cons]
      omega
    simp only [resolveF, hpath, hw]
    rw [if_pos hlt, if_pos htake, hdropP, hch]
    by_cases htl : tl = []
    · have hre := htlrest htl
      subst htl
      subst hre
      have hiol2 : indexByteOrLen (colonB :: nm) slashB = nm.length + 1 := by
        have hx := indexByteOrLen_none (colonB :: nm) slashB hnoslash
        simpa using hx
      have htk : (colonB :: nm).take (nm.length + 1) = colonB :: nm := by
        rw [show nm.length + 1 = (colonB :: nm).length by simp]
        exact List.take_length _
      simp only [chainPs, if_pos rfl, List.length_cons]
      simp [hiol2, htk, literalParams, renderPs]
    · have htlpos : 1 ≤ tl.length := List.length_pos.mpr htl
      have hrender : renderPs ((nm, tl) :: rest) =
          (colonB :: nm) ++ (tl ++ renderPs rest) := by simp [renderPs]
      have hiol : indexByteOrLen (renderPs ((nm, tl) :: rest)) slashB = nm.length + 1 := by
        rw [hrender]
        rw [indexByteOrLen_first (colonB :: nm) (tl ++ renderPs rest) slashB hnoslash
          (by rw [getB_append_left tl _ 0 (by omega)]; exact htlslash htl)
          (by simp [htl])]
        simp
      have htake2 : (renderPs ((nm, tl) :: rest)).take (nm.length + 1) = colonB :: nm := by
        rw [hrender, show nm.length + 1 = (colonB :: nm).length by simp]
        exact List.take_left _ _
      have hdrop2 : (renderPs ((nm, tl) :: rest)).drop (nm.length + 1) =
          tl ++ renderPs rest := by
        rw [hrender, show nm.length + 1 = (colonB :: nm).length by simp]
        exact List.drop_left _ _
      have hlt2 : nm.length + 1 < (renderPs ((nm, tl) :: rest)).length := by
        rw [hrender]
        simp only [List.length_append, List.length_cons]
        omega
      simp only [chainPs, if_neg htl, List.length_cons]
      simp [resolveF, hiol, hlt2, hdrop2, htake2]
      by_cases hre : rest = []
      · subst hre
        obtain ⟨f, rfl⟩ : ∃ f, fuel = f + 1 :=
          ⟨fuel - 1, by simp only [List.length_cons] at hfuel; omega⟩
        simp only [renderPs, List.append_nil]
        simp [resolveF, literalParams]
      · simp only [if_neg hre]
        obtain ⟨f, rfl⟩ : ∃ f, fuel = f + 1 :=
          ⟨fuel - 1, by simp only [List.length_cons] at hfuel; omega⟩
        have hihx := ih h (p ++ [(nm, colonB :: nm)]) f
          (Node.mk .static tl rest.length [] none 1
            [chainPs h rest.length rest] (!decide (rest = []))) tl hgrest hre (by simp)
          (by simp [hre]) (by simp) (by simp only [List.length_cons] at hfuel; omega)
        rw [hihx]
        simp [literalParams]

theorem chain_resolve_slash (ps : List (Str × Str)) :
    ∀ (h : Nat) (p : Params) (fuel : Nat) (n : Node) (P : Str),
    goodPs ps → ps ≠ [] →
    n.path = P → n.wildcard = true → n.children = [chainPs h ps.length ps] →
    ps.length ≤ fuel →
    resolveF (fuel + 1) n (P ++ (renderPs ps ++ [slashB])) p =
      some (some h, p ++ literalParams ps, true) := by
  induction ps with
  | nil => intro h p fuel n P _ hne; exact absurd rfl hne
  | cons q rest ih =>
    intro h p fuel n P hgood _ hpath hw hch hfuel
    obtain ⟨nm, tl⟩ := q
    obtain ⟨hnm, htlw, htlrest, htlslash, hgrest⟩ := hgood
    have hnmpos : 1 ≤ nm.length := List.length_pos.mpr hnm.1
    have hnoslash : ∀ a ∈ colonB :: nm, a ≠ slashB := by
      intro a ha
      rcases List.mem_cons.mp ha with hc | hm
      · rw [hc]; decide
      · exact fun hcon => ((hnm.2 a hm).1) hcon
    have htake : (P ++ (renderPs ((nm, tl) :: rest) ++ [slashB])).take P.length = P :=
      List.take_left P _
    have hdropP : (P ++ (renderPs ((nm, tl) :: rest) ++ [slashB])).drop P.length =
        renderPs ((nm, tl) :: rest) ++ [slashB] := List.drop_left P _
    have hlt : P.length < (P ++ (renderPs ((nm, tl) :: rest) ++ [slashB])).length := by
      simp only [List.length_append, renderPs, List.length_cons]
      omega
    simp only [resolveF, hpath, hw]
    rw [if_pos hlt, if_pos htake, hdropP, hch]
    by_cases htl : tl = []
    · have hre := htlrest htl
      subst htl
      subst hre
      have hrender : renderPs [(nm, ([] : Str))] ++ [slashB] =
          (colonB :: nm) ++ [slashB] := by simp [renderPs]
      have hiol2 : indexByteOrLen (renderPs [(nm, ([] : Str))] ++ [slashB]) slashB =
          nm.length + 1 := by
        rw [hrender,
          indexByteOrLen_first (colonB :: nm) [slashB] slashB hnoslash (by simp [getB])
            (by simp)]
        simp
      have htk : (renderPs [(nm, ([] : Str))] ++ [slashB]).take (nm.length + 1) =
          colonB :: nm := by
        rw [hrender, show nm.length + 1 = (colonB :: nm).length by simp]
        exact List.take_left _ _
      have hdk : (renderPs [(nm, ([] : Str))] ++ [slashB]).drop (nm.length + 1) =
          [slashB] := by
        rw [hrender, show nm.length + 1 = (colonB :: nm).length by simp]
        exact List.drop_left _ _
      have hltx : nm.length + 1 < (renderPs [(nm, ([] : Str))] ++ [slashB]).length := by
        simp [renderPs]
      have hrl : (renderPs [(nm, ([] : Str))]).length = nm.length + 1 := by
        simp [renderPs]
      simp only [chainPs, if_pos rfl, List.length_cons]
      simp [hiol2, htk, hdk, hltx, hrl, literalParams]
    · have htlpos : 1 ≤ tl.length := List.length_pos.mpr htl
      have hrender : renderPs ((nm, tl) :: rest) ++ [slashB] =
          (colonB :: nm) ++ ((tl ++ renderPs rest) ++ [slashB]) := by simp [renderPs]
      have hiol : indexByteOrLen (renderPs ((nm, tl) :: rest) ++ [slashB]) slashB =
          nm.length + 1 := by
        rw [hrender,
          indexByteOrLen_first (colonB :: nm) ((tl ++ renderPs rest) ++ [slashB]) slashB
            hnoslash
            (by rw [getB_append_left (tl ++ renderPs rest) _ 0 (by simp; omega),
                  getB_append_left tl _ 0 (by omega)]
                exact htlslash htl)
            (by simp)]
        simp
      have htake2 : (renderPs ((nm, tl) :: rest) ++ [slashB]).take (nm.length + 1) =
          colonB :: nm := by
        rw [hrender, show nm.length + 1 = (colonB :: nm).length by simp]
        exact List.take_left _ _
      have hdrop2 : (renderPs ((nm, tl) :: rest) ++ [slashB]).drop (nm.length + 1) =
          tl ++ (renderPs rest ++ [slashB]) := by
        rw [hrender, show nm.length + 1 = (colonB :: nm).length by simp]
        rw [List.drop_left _ _, List.append_assoc]
      have hlt2m : nm.length < (renderPs ((nm, tl) :: rest)).length := by
        have hx : (renderPs ((nm, tl) :: rest)).length =
            nm.length + 1 + tl.length + (renderPs rest).length := by
          simp [renderPs]
          omega
        omega
      simp only [chainPs, if_neg htl, List.length_cons]
      simp [resolveF, hiol, hlt2m, hdrop2, htake2]
      by_cases hre : rest = []
      · subst hre
        obtain ⟨f, rfl⟩ : ∃ f, fuel = f + 1 :=
          ⟨fuel - 1, by simp only [List.length_cons] at hfuel; omega⟩
        simp only [renderPs, List.nil_append]
        simp [resolveF, literalParams, List.take_left, List.drop_left,
          show tl.length < (tl ++ [slashB]).length by simp]
      · simp only [if_neg hre]
        obtain ⟨f, rfl⟩ : ∃ f, fuel = f + 1 :=
          ⟨fuel - 1, by simp only [List.length_cons] at hfuel; omega⟩
        have hihx := ih h (p ++ [(nm, colonB :: nm)]) f
          (Node.mk .static tl rest.length [] none 1
            [chainPs h rest.length rest] (!decide (rest = []))) tl hgrest hre (by simp)
          (by simp [hre]) (by simp) (by simp only [List.length_cons] at hfuel; omega)
        rw [hihx]
        simp [literalParams]

/-- C2 failing input: with `/x` (handler 1) and `/x/` (handler 2) both
registered, looking up the literal registered path `/x/` does not return
`(2, tsr = false)`: it returns handler 1 with `tsr = true`, even though the
`/`-child of the root holds handler 2. -/
theorem c2_failing_input :
    regOk (buildTree [(s2b ("/x"), 1), (s2b ("/x/"), 2)]) = true ∧
    ((getOk (buildTree [(s2b ("/x"), 1), (s2b ("/x/"), 2)])).children.getD 0
        default).path = s2b ("/") ∧
    ((getOk (buildTree [(s2b ("/x"), 1), (s2b ("/x/"), 2)])).children.getD 0
        default).handle = some 2 ∧
    Node.resolve (getOk (buildTree [(s2b ("/x"), 1), (s2b ("/x/"), 2)]))
        (s2b ("/x/")) = some (some 1, [], true) := by
  refine ⟨by decide, by decide, by decide, by decide⟩

/-- C4 failing input: with only `/ab` registered, looking up `/` returns
`tsr = true`, yet neither slash-toggled variant of `/` (the empty path or
`//`) matches any route. -/
theorem c4_failing_input :
    regOk (Node.register emptyNode (s2b ("/ab")) 9) = true ∧
    Node.resolve (getOk (Node.register emptyNode (s2b ("/ab")) 9)) (s2b ("/")) =
      some (none, [], true) ∧
    Node.resolve (getOk (Node.register emptyNode (s2b ("/ab")) 9)) [] =
      some (none, [], false) ∧
    Node.resolve (getOk (Node.register emptyNode (s2b ("/ab")) 9)) (s2b ("//")) =
      some (none, [], false) := by
  refine ⟨by decide, by decide, by decide, by decide⟩

/-- C5 failing input: with `/xy` and `/x/:p` registered, looking up `/x/`
returns `tsr = true` together with a nil handler, refuting the claim that a
non-nil handler always accompanies `tsr = true`. -/
theorem c5_failing_input :
    regOk (buildTree [(s2b ("/xy"), 1), (s2b ("/x/:p"), 2)]) = true ∧
    Node.resolve (getOk (buildTree [(s2b ("/xy"), 1), (s2b ("/x/:p"), 2)]))
        (s2b ("/x/")) = some (none, [], true) := by
  refine ⟨by decide, by decide⟩

mutual
/-- Every node of the tree satisfies the Boolean predicate `p`. -/
def allNodesB (p : Node → Bool) : Node → Bool
  | .mk t pa np ix h pr cs w => p (.mk t pa np ix h pr cs w) && allListB p cs
/-- Every node of every tree of the list satisfies `p`. -/
def allListB (p : Node → Bool) : List Node → Bool
  | [] => true
  | c :: cs => allNodesB p c && allListB p cs
end

/-- The local property of C6 as amended: children sorted by non-increasing
priority, and the `indices` string parallels the static children except at
a `param` node, whose single continuation child (the path part after the
parameter) is stored without an index byte. -/
def c6okB (n : Node) : Bool :=
  prioritySorted n.children &&
    ((n.typo == NodeType.param && n.children.length == 1 &&
        decide (n.indices = ([] : Str))) ||
      indicesParallel n)

/-- The local property of C7 as amended: the `wildcard` flag holds iff the
node has children and its first child is a `param` node, or the node is
itself the intermediate catch-all node holding the catch-all leaf. -/
def c7okB (n : Node) : Bool :=
  n.wildcard ==
    (decide (n.children.length > 0) &&
      ((n.children.getD 0 default).typo == NodeType.param ||
        (n.typo == NodeType.wildcard &&
          (n.children.getD 0 default).typo == NodeType.wildcard)))

/-- The head node of a non-empty parameter chain is a `param` node. -/
theorem chainPs_typo (h m : Nat) (nm tl : Str) (rest : List (Str × Str)) :
    (chainPs h m ((nm, tl) :: rest)).typo = NodeType.param := by
  by_cases htl : tl = [] <;> simp [chainPs, htl]

/-- Every node of a parameter chain satisfies the amended C6 property. -/
theorem allNodesB_c6_chain (ps : List (Str × Str)) : ∀ (h numP : Nat),
    allNodesB c6okB (chainPs h numP ps) = true := by
  induction ps with
  | nil => intro h numP; rfl
  | cons q rest ih =>
    intro h numP
    obtain ⟨nm, tl⟩ := q
    by_cases htl : tl = []
    · subst htl; rfl
    · rw [chainPs, if_neg htl]
      cases rest with
      | nil =>
        simp [allNodesB, allListB, c6okB, prioritySorted, indicesParallel,
          List.range_succ, List.range_zero]
      | cons q2 rest2 =>
        have hih := ih h (numP - 1)
        have hty : (chainPs h (numP - 1) (q2 :: rest2)).typo = NodeType.param := by
          obtain ⟨nm2, tl2⟩ := q2
          exact chainPs_typo h (numP - 1) nm2 tl2 rest2
        simp [allNodesB, allListB, c6okB, prioritySorted, indicesParallel,
          List.range_succ, List.range_zero, hty, hih]

/-- Every node of a parameter chain satisfies the amended C7 property. -/
theorem allNodesB_c7_chain (ps : List (Str × Str)) : ∀ (h numP : Nat),
    allNodesB c7okB (chainPs h numP ps) = true := by
  induction ps with
  | nil => intro h numP; rfl
  | cons q rest ih =>
    intro h numP
    obtain ⟨nm, tl⟩ := q
    by_cases htl : tl = []
    · subst htl; rfl
    · rw [chainPs, if_neg htl]
      cases rest with
      | nil =>
        simp [allNodesB, allListB, c7okB]
      | cons q2 rest2 =>
        have hih := ih h (numP - 1)
        have hty : (chainPs h (numP - 1) (q2 :: rest2)).typo = NodeType.param := by
          obtain ⟨nm2, tl2⟩ := q2
          exact chainPs_typo h (numP - 1) nm2 tl2 rest2
        simp [allNodesB, allListB, c7okB, hty, hih]

/-- Modelled from the spec: the Unicode lower-case map used by
`strings.ToLower` and `unicode.ToLower` is not among the provided source
files.  It is modelled on the code points this development exercises: the
ASCII letters (`A`–`Z` map to `a`–`z`) and U+017F LATIN SMALL LETTER LONG S
(`ſ`, already lower case, maps to itself); all other code points are kept
unchanged. -/
def toLowerRune (r : Nat) : Nat := if 65 ≤ r ∧ r ≤ 90 then r + 32 else r

/-- Modelled from the spec: the Unicode upper-case map used by
`unicode.ToUpper`, modelled on the code points this development exercises:
the ASCII letters (`a`–`z` map to `A`–`Z`) and U+017F (`ſ`), whose
upper-case form is the one-byte ASCII letter `S`; all other code points
are kept unchanged. -/
def toUpperRune (r : Nat) : Nat :=
  if 97 ≤ r ∧ r ≤ 122 then r - 32 else if r = 383 then 83 else r

/-- Modelled from the spec: `utf8.RuneStart` — a byte that is not a UTF-8
continuation byte (`0x80`–`0xBF`) starts a rune. -/
def runeStart (b : Nat) : Bool := !(decide (128 ≤ b) && decide (b < 192))

/-- Modelled from the spec: UTF-8 encoding of a code point
(`utf8.EncodeRune`), standard 1–4 byte encoding by code-point range. -/
def utf8Encode (r : Nat) : Str :=
  if r < 128 then [r]
  else if r < 2048 then [192 + r / 64, 128 + r % 64]
  else if r < 65536 then [224 + r / 4096, 128 + r / 64 % 64, 128 + r % 64]
  else [240 + r / 262144, 128 + r / 4096 % 64, 128 + r / 64 % 64, 128 + r % 64]

/-- Modelled from the spec: UTF-8 decoding of the first rune of a byte
string (`utf8.DecodeRuneInString`), returning the code point and the number
of bytes consumed; a leading continuation byte or a truncated sequence
yields the replacement rune U+FFFD of size 1 (the full validation of
overlong or surrogate forms is outside the code points this development
exercises). -/
def decodeRune : Str → Nat × Nat
  | [] => (65533, 0)
  | b :: rest =>
    if b < 128 then (b, 1)
    else if 192 ≤ b ∧ b < 224 then
      match rest with
      | b2 :: _ =>
        if 128 ≤ b2 ∧ b2 < 192 then ((b - 192) * 64 + (b2 - 128), 2) else (65533, 1)
      | [] => (65533, 1)
    else if 224 ≤ b ∧ b < 240 then
      match rest with
      | b2 :: b3 :: _ =>
        if (128 ≤ b2 ∧ b2 < 192) ∧ (128 ≤ b3 ∧ b3 < 192) then
          ((b - 224) * 4096 + (b2 - 128) * 64 + (b3 - 128), 3)
        else (65533, 1)
      | _ => (65533, 1)
    else if 240 ≤ b ∧ b < 248 then
      match rest with
      | b2 :: b3 :: b4 :: _ =>
        if (128 ≤ b2 ∧ b2 < 192) ∧ (128 ≤ b3 ∧ b3 < 192) ∧ (128 ≤ b4 ∧ b4 < 192) then
          ((b - 240) * 262144 + (b2 - 128) * 4096 + (b3 - 128) * 64 + (b4 - 128), 4)
        else (65533, 1)
      | _ => (65533, 1)
    else (65533, 1)

/-- Rune-wise case mapping of a byte string, one decoded rune per step;
the fuel is the string length (each step consumes at least one byte). -/
def mapRunesF (f : Nat → Nat) : Nat → Str → Str
  | 0, _ => []
  | _, [] => []
  | fuel + 1, b :: rest =>
    let d := decodeRune (b :: rest)
    utf8Encode (f d.1) ++ mapRunesF f fuel ((b :: rest).drop d.2)

/-- Modelled from the spec: `strings.ToLower` — decode each rune, map it
with the lower-case table, re-encode. -/
def toLowerStr (s : Str) : Str := mapRunesF toLowerRune s.length s

/-- Modelled from the spec: the `upper(p)` of the claim — every rune of
`p` upper-cased (rune-wise `unicode.ToUpper`). -/
def toUpperStr (s : Str) : Str := mapRunesF toUpperRune s.length s

/-- Modelled from the spec: `shiftNRuneBytes` — shift the 4-byte rune
buffer left by `k` bytes, filling with zeros. -/
def shiftRB (rb : List Nat) : Nat → List Nat
  | 0 => rb
  | 1 => [rb.getD 1 0, rb.getD 2 0, rb.getD 3 0, 0]
  | 2 => [rb.getD 2 0, rb.getD 3 0, 0, 0]
  | 3 => [rb.getD 3 0, 0, 0, 0]
  | _ => [0, 0, 0, 0]

/-- `utf8.EncodeRune(rb[:], r)`: overwrite the first bytes of the 4-byte
rune buffer with the encoding of `r`, keeping the remaining bytes. -/
def writeRune (rb : List Nat) (r : Nat) : List Nat :=
  utf8Encode r ++ rb.drop (utf8Encode r).length

/-- The rune-start search of `findCaseInsensitivePathRec` (the `off` loop):
walk back up to `min(len(lowerNodePath), 3)` bytes (the Go `min` helper is
also not among the source files) from the boundary `L` in the cached
lower-case path and decode the rune found there; if no rune start is found
the rune value stays `0` and `off` becomes the loop bound, as in the
source. -/
def findRuneStart (oldPath : Str) (L m : Nat) : Nat × Nat :=
  if 0 < m ∧ runeStart (getB oldPath L) then ((decodeRune (oldPath.drop L)).1, 0)
  else if 1 < m ∧ runeStart (getB oldPath (L - 1)) then
    ((decodeRune (oldPath.drop (L - 1))).1, 1)
  else if 2 < m ∧ runeStart (getB oldPath (L - 2)) then
    ((decodeRune (oldPath.drop (L - 2))).1, 2)
  else (0, m)

/-- `findCaseInsensitivePathRec` from the source, as a fueled recursion;
one recursive call per `walk` iteration and one per case-fork descent.
`none` stands for the `panic("invalid node type")` and for fuel
exhaustion (never reached at the fuel the public wrapper supplies). -/
def ciRecF : Nat → Node → Str → Str → Str → List Nat → Bool → Option (Str × Bool)
  | 0, _, _, _, _, _, _ => none
  | fuel + 1, n, uripath, lowerPath, newPath, rb, fix =>
    let lnp := toLowerStr n.path
    if lowerPath.length ≥ lnp.length ∧
        (lnp.length = 0 ∨ seg lowerPath 1 lnp.length = lnp.drop 1) then
      let newPath1 := newPath ++ n.path
      let uripath1 := uripath.drop n.path.length
      if 0 < uripath1.length then
        let lowerPath1 := lowerPath.drop lnp.length
        if n.wildcard = false then
          let rb1 := shiftRB rb lnp.length
          if rb1.getD 0 0 ≠ 0 then
            match idxOf n.indices (rb1.getD 0 0) with
            | some i =>
              ciRecF fuel (n.children.getD i default) uripath1 lowerPath1 newPath1 rb1 fix
            | none =>
              some (newPath1, fix && decide (uripath1 = [slashB]) && n.handle.isSome)
          else
            let p1 := findRuneStart lowerPath lnp.length (Nat.min lnp.length 3)
            let rv := p1.1
            let off := p1.2
            let rbL := shiftRB (writeRune rb1 rv) off
            let upper :=
              fun (_ : Unit) =>
                let up := toUpperRune rv
                if up ≠ rv then
                  let rbU := shiftRB (writeRune rbL up) off
                  match idxOf n.indices (rbU.getD 0 0) with
                  | some i =>
                    ciRecF fuel (n.children.getD i default) uripath1 lowerPath1 newPath1
                      rbU fix
                  | none =>
                    some (newPath1, fix && decide (uripath1 = [slashB]) && n.handle.isSome)
                else
                  some (newPath1, fix && decide (uripath1 = [slashB]) && n.handle.isSome)
            match idxOf n.indices (rbL.getD 0 0) with
            | some i =>
              match ciRecF fuel (n.children.getD i default) uripath1 lowerPath1 newPath1
                  rbL fix with
              | none => none
              | some (out, true) => some (out, true)
              | some (_, false) => upper ()
            | none => upper ()
        else
          let n1 := n.children.getD 0 default
          match n1.typo with
          | .param =>
            let k := indexByteOrLen uripath1 slashB
            let newPath2 := newPath1 ++ uripath1.take k
            if k < uripath1.length then
              if 0 < n1.children.length then
                ciRecF fuel (n1.children.getD 0 default) (uripath1.drop k)
                  (lowerPath1.drop k) newPath2 rb fix
              else if fix && decide (uripath1.length = k + 1) then some (newPath2, true)
              else some (newPath2, false)
            else
              if n1.handle.isSome then some (newPath2, true)
              else if fix && decide (n1.children.length = 1) then
                let n2 := n1.children.getD 0 default
                if n2.path = [slashB] ∧ n2.handle.isSome then
                  some (newPath2 ++ [slashB], true)
                else some (newPath2, false)
              else some (newPath2, false)
          | .wildcard => some (newPath1 ++ uripath1, true)
          | _ => none
      else
        if n.handle.isSome then some (newPath1, true)
        else if fix then
          match idxOf n.indices slashB with
          | some i =>
            let n1 := n.children.getD i default
            if (n1.path.length = 1 ∧ n1.handle.isSome) ∨
                (n1.typo = .wildcard ∧ (n1.children.getD 0 default).handle.isSome) then
              some (newPath1 ++ [slashB], true)
            else some (newPath1, false)
          | none => some (newPath1, false)
        else some (newPath1, false)
    else
      if fix then
        if uripath = [slashB] then some (newPath, true)
        else if lowerPath.length + 1 = lnp.length ∧ getB lnp lowerPath.length = slashB ∧
            lowerPath.drop 1 = seg lnp 1 lowerPath.length ∧ n.handle.isSome then
          some (newPath ++ n.path, true)
        else some (newPath, false)
      else some (newPath, false)

/-- `findCaseInsensitivePath` from the source: start the recursive walk
with the lower-case shadow of the query, an empty output and an empty rune
buffer.  Every walk iteration descends into a child, so the node count
(plus the path length for the forks) bounds the recursion depth. -/
def Node.findCaseInsensitivePath (n : Node) (uripath : Str) (fix : Bool) :
    Option (Str × Bool) :=
  ciRecF (nodeSize n + uripath.length + 1) n uripath (toLowerStr uripath) []
    [0, 0, 0, 0] fix

/-- All bytes of `s` are ASCII. -/
def allASCII (s : Str) : Prop := ∀ c ∈ s, c < 128

instance : DecidablePred allASCII := fun s => by
  unfold allASCII; infer_instance

theorem utf8Encode_ascii (r : Nat) (h : r < 128) : utf8Encode r = [r] := by
  simp [utf8Encode, h]

theorem decodeRune_ascii (b : Nat) (rest : Str) (h : b < 128) :
    decodeRune (b :: rest) = (b, 1) := by
  simp [decodeRune, h]

theorem toLowerRune_ascii_lt (b : Nat) (h : b < 128) : toLowerRune b < 128 := by
  unfold toLowerRune; split <;> omega

theorem toUpperRune_ascii_lt (b : Nat) (h : b < 128) : toUpperRune b < 128 := by
  unfold toUpperRune; split
  · omega
  · split <;> omega

theorem toLowerRune_toUpperRune (b : Nat) (h : b < 128) :
    toLowerRune (toUpperRune b) = toLowerRune b := by
  unfold toLowerRune toUpperRune
  split_ifs <;> omega

/-- On an ASCII string, rune-wise case mapping is the byte map. -/
theorem mapRunesF_ascii (f : Nat → Nat) (hf : ∀ b, b < 128 → f b < 128) :
    ∀ (fuel : Nat) (s : Str), allASCII s → s.length ≤ fuel →
    mapRunesF f fuel s = s.map f := by
  intro fuel
  induction fuel with
  | zero =>
    intro s ha hl
    cases s with
    | nil => rfl
    | cons b rest => simp at hl
  | succ fu ih =>
    intro s ha hl
    cases s with
    | nil => rfl
    | cons b rest =>
      have hb : b < 128 := ha b (by simp)
      have hrest : allASCII rest := fun c hc => ha c (by simp [hc])
      simp only [mapRunesF, decodeRune_ascii b rest hb,
        utf8Encode_ascii (f b) (hf b hb), List.drop_succ_cons, List.drop_zero,
        List.map_cons, List.cons_append, List.nil_append]
      exact congrArg _ (ih rest hrest (by simp only [List.length_cons] at hl; omega))

theorem toLowerStr_ascii (s : Str) (ha : allASCII s) :
    toLowerStr s = s.map toLowerRune :=
  mapRunesF_ascii toLowerRune toLowerRune_ascii_lt s.length s ha (Nat.le_refl _)

theorem toUpperStr_ascii (s : Str) (ha : allASCII s) :
    toUpperStr s = s.map toUpperRune :=
  mapRunesF_ascii toUpperRune toUpperRune_ascii_lt s.length s ha (Nat.le_refl _)

/-- Lower-casing absorbs upper-casing on ASCII strings. -/
theorem lower_upper_ascii (s : Str) (ha : allASCII s) :
    toLowerStr (toUpperStr s) = toLowerStr s := by
  rw [toUpperStr_ascii s ha, toLowerStr_ascii s ha,
    toLowerStr_ascii (s.map toUpperRune)
      (fun c hc => by
        obtain ⟨b, hb, rfl⟩ := List.mem_map.mp hc
        exact toUpperRune_ascii_lt b (ha b hb)),
    List.map_map]
  exact List.map_congr_left (fun b hb => toLowerRune_toUpperRune b (ha b hb))

theorem seg_one_length (s : Str) : seg s 1 s.length = s.drop 1 := by
  simp [seg]

/-- Equality of all node fields except `priority` and `nparams` (the walk
bumps those of each visited node before descending, and they influence no
branch decision). -/
def coreEq (a b : Node) : Prop :=
  a.typo = b.typo ∧ a.path = b.path ∧ a.indices = b.indices ∧
    a.handle = b.handle ∧ a.children = b.children ∧ a.wildcard = b.wildcard

theorem coreEq_refl (a : Node) : coreEq a a := ⟨rfl, rfl, rfl, rfl, rfl, rfl⟩

theorem coreEq_setPriority (a : Node) (x : Nat) : coreEq (a.setPriority x) a := by
  cases a; exact ⟨rfl, rfl, rfl, rfl, rfl, rfl⟩

theorem coreEq_setNparams (a : Node) (x : Nat) : coreEq (a.setNparams x) a := by
  cases a; exact ⟨rfl, rfl, rfl, rfl, rfl, rfl⟩

theorem coreEq_trans {a b c : Node} (h1 : coreEq a b) (h2 : coreEq b c) :
    coreEq a c := by
  obtain ⟨t1, p1, i1, h1', c1, w1⟩ := h1
  obtain ⟨t2, p2, i2, h2', c2, w2⟩ := h2
  exact ⟨t1.trans t2, p1.trans p2, i1.trans i2, h1'.trans h2', c1.trans c2, w1.trans w2⟩

/-- The local structural invariant of insertion-built trees used by the
duplicate-registration proof: a node with the wildcard flag has a child;
`indices` and `children` run in parallel except at flag nodes and at a
`param` node holding its single unindexed continuation child; and `param`
children occur only under flag nodes. -/
def wf9B (n : Node) : Bool :=
  (!n.wildcard || !n.children.isEmpty) &&
  (!n.wildcard || decide (1 ≤ countParams ((n.children.getD 0 default).path))) &&
  (n.indices.length == n.children.length || n.wildcard ||
    (n.typo == NodeType.param && decide (n.indices = ([] : Str)) &&
      n.children.length == 1)) &&
  n.children.all (fun c => c.typo != NodeType.param || n.wildcard)

theorem allListB_iff_mem (p : Node → Bool) (cs : List Node) :
    allListB p cs = true ↔ ∀ x ∈ cs, allNodesB p x = true := by
  induction cs with
  | nil => simp [allListB]
  | cons c rest ih =>
    simp [allListB, ih, List.forall_mem_cons]

theorem allNodesB_unfold (p : Node → Bool) (n : Node) :
    allNodesB p n = (p n && allListB p n.children) := by
  cases n; rfl

theorem allNodesB_children (p : Node → Bool) (n : Node) (c : Node)
    (hall : allNodesB p n = true) (hc : c ∈ n.children) : allNodesB p c = true := by
  rw [allNodesB_unfold, Bool.and_eq_true] at hall
  exact (allListB_iff_mem p n.children).mp hall.2 c hc

/-- `wf9B` and the subtree predicate ignore `priority` and `nparams`. -/
theorem wf9B_coreEq (a b : Node) (h : coreEq a b) : wf9B a = wf9B b := by
  obtain ⟨t, p, i, hh, c, w⟩ := h
  simp [wf9B, t, p, i, hh, c, w]

theorem allNodesB_wf9B_coreEq (a b : Node) (h : coreEq a b) :
    allNodesB wf9B a = allNodesB wf9B b := by
  rw [allNodesB_unfold, allNodesB_unfold, wf9B_coreEq a b h, h.2.2.2.2.1]


/-- Node size is determined by the children. -/
theorem nodeSize_eq_children (n : Node) : nodeSize n = nodesSize n.children + 1 := by
  cases n; rfl

theorem nodeSize_coreEq (a b : Node) (h : coreEq a b) : nodeSize a = nodeSize b := by
  rw [nodeSize_eq_children, nodeSize_eq_children, h.2.2.2.2.1]

theorem nodesSize_set_ge (cs : List Node) (j : Nat) (x : Node) (hj : j < cs.length) :
    nodeSize x + 1 ≤ nodesSize (cs.set j x) := by
  induction cs generalizing j with
  | nil => simp at hj
  | cons c rest ih =>
    cases j with
    | zero =>
      simp [List.set, nodesSize]
    | succ j' =>
      have := ih j' (by simpa using Nat.lt_of_succ_lt_succ hj)
      simp [List.set, nodesSize]
      omega

theorem nodesSize_mem_ge (cs : List Node) (x : Node) (hx : x ∈ cs) :
    nodeSize x + 1 ≤ nodesSize cs := by
  induction cs with
  | nil => simp at hx
  | cons c rest ih =>
    rcases List.mem_cons.mp hx with rfl | hx'
    · simp [nodesSize]
    · have := ih hx'
      simp [nodesSize]
      omega

/-! #### Common-prefix lemmas -/

theorem commonPrefixLen_le_left (a b : Str) : commonPrefixLen a b ≤ a.length := by
  induction a generalizing b with
  | nil => cases b <;> simp [commonPrefixLen]
  | cons x xs ih =>
    cases b with
    | nil => simp [commonPrefixLen]
    | cons y ys =>
      by_cases h : x = y <;> simp [commonPrefixLen, h]
      exact ih ys

theorem commonPrefixLen_le_right (a b : Str) : commonPrefixLen a b ≤ b.length := by
  induction a generalizing b with
  | nil => cases b <;> simp [commonPrefixLen]
  | cons x xs ih =>
    cases b with
    | nil => simp [commonPrefixLen]
    | cons y ys =>
      by_cases h : x = y <;> simp [commonPrefixLen, h]
      exact ih ys

theorem commonPrefixLen_append (t r : Str) : commonPrefixLen (t ++ r) t = t.length := by
  induction t with
  | nil => cases r <;> simp [commonPrefixLen]
  | cons x xs ih => simp [commonPrefixLen, ih]

theorem commonPrefixLen_self (s : Str) : commonPrefixLen s s = s.length := by
  have := commonPrefixLen_append s []
  simpa using this

theorem commonPrefixLen_take (s : Str) (i : Nat) (h : i ≤ s.length) :
    commonPrefixLen s (s.take i) = i := by
  have hdec : s = s.take i ++ s.drop i := (List.take_append_drop i s).symm
  calc commonPrefixLen s (s.take i)
      = commonPrefixLen (s.take i ++ s.drop i) (s.take i) := by rw [← hdec]
    _ = (s.take i).length := commonPrefixLen_append _ _
    _ = i := by simp [List.length_take]; omega

/-- A full common prefix makes the second string a literal prefix of the
first. -/
theorem commonPrefixLen_full (a b : Str) (h : commonPrefixLen a b = b.length) :
    a.take b.length = b := by
  induction a generalizing b with
  | nil =>
    cases b with
    | nil => simp
    | cons y ys => simp [commonPrefixLen] at h
  | cons x xs ih =>
    cases b with
    | nil => simp
    | cons y ys =>
      by_cases hxy : x = y
      · simp [commonPrefixLen, hxy] at h
        simp [hxy, List.take, ih ys h]
      · simp [commonPrefixLen, hxy] at h

/-- Conversely, a literal prefix yields a full common prefix. -/
theorem commonPrefixLen_of_prefix (a b : Str) (h : a.take b.length = b)
    (hl : b.length ≤ a.length) : commonPrefixLen a b = b.length := by
  have : a = b ++ a.drop b.length := by
    conv_lhs => rw [← List.take_append_drop b.length a, h]
  rw [this, commonPrefixLen_append]

/-! #### Child-scan and priority-bubble lemmas -/

theorem getD_mem_of_lt (cs : List Node) (j : Nat) (hj : j < cs.length) :
    cs.getD j default ∈ cs := by
  rw [List.getD_eq_getElem cs default hj]
  exact List.getElem_mem hj

theorem idxOf_cons (b : Nat) (rest : Str) (c : Nat) :
    idxOf (b :: rest) c = if b = c then some 0 else (idxOf rest c).map (· + 1) := by
  simp [idxOf, List.findIdx?_cons, List.findIdx?_succ]

theorem idxOf_eq_some_iff (ix : Str) (c : Nat) : ∀ (j : Nat),
    idxOf ix c = some j ↔
      (j < ix.length ∧ getB ix j = c ∧ ∀ t, t < j → getB ix t ≠ c) := by
  induction ix with
  | nil =>
    intro j
    constructor
    · intro h; simp [idxOf, List.findIdx?] at h
    · intro ⟨h, _, _⟩; simp at h
  | cons b rest ih =>
    intro j
    rw [idxOf_cons]
    by_cases hbc : b = c
    · simp only [if_pos hbc]
      constructor
      · rintro ⟨rfl⟩
        exact ⟨by simp, by simpa [getB] using hbc, fun t ht => by omega⟩
      · rintro ⟨hlt, hj, hbefore⟩
        cases j with
        | zero => rfl
        | succ j' =>
          exact absurd (by simpa [getB] using hbc) (hbefore 0 (Nat.succ_pos _))
    · simp only [if_neg hbc]
      constructor
      · intro h
        obtain ⟨j', hj', rfl⟩ := Option.map_eq_some'.mp h
        obtain ⟨h1, h2, h3⟩ := (ih j').mp hj'
        refine ⟨by simpa using h1, by simpa [getB] using h2, ?_⟩
        intro t ht
        cases t with
        | zero => simpa [getB] using hbc
        | succ t' => simpa [getB] using h3 t' (by omega)
      · rintro ⟨hlt, hj, hbefore⟩
        cases j with
        | zero => exact absurd (by simpa [getB] using hj) hbc
        | succ j' =>
          rw [(ih j').mpr ⟨by simpa using hlt, by simpa [getB] using hj,
            fun t ht => by simpa [getB] using hbefore (t + 1) (by omega)⟩]
          rfl

theorem idxOf_eq_none_iff (ix : Str) (c : Nat) :
    idxOf ix c = none ↔ ∀ t, t < ix.length → getB ix t ≠ c := by
  induction ix with
  | nil => simp [idxOf, List.findIdx?]
  | cons b rest ih =>
    rw [idxOf_cons]
    by_cases hbc : b = c
    · simp only [if_pos hbc]
      constructor
      · intro h; exact absurd h (by simp)
      · intro h
        exact absurd (by simpa [getB] using hbc) (h 0 (by simp))
    · simp only [if_neg hbc, Option.map_eq_none', ih]
      constructor
      · intro h t ht
        cases t with
        | zero => simpa [getB] using hbc
        | succ t' => simpa [getB] using h t' (by simpa using ht)
      · intro h t ht
        simpa [getB] using h (t + 1) (by simpa using ht)

/-- Appending a fresh byte puts its index at the old length. -/
theorem idxOf_append_new (ix : Str) (c : Nat) (h : idxOf ix c = none) :
    idxOf (ix ++ [c]) c = some ix.length := by
  rw [idxOf_eq_some_iff]
  refine ⟨by simp, ?_, ?_⟩
  · rw [getB_append_right ix [c] ix.length (Nat.le_refl _)]
    simp [getB]
  · intro t ht
    rw [getB_append_left ix [c] t ht]
    exact (idxOf_eq_none_iff ix c).mp h t ht

/-- The index-byte surgery of `incrementChildPriority` moves the first
occurrence of the byte from `j` to `k`. -/
theorem seg_single (ix : Str) (j : Nat) (hjlen : j < ix.length) :
    seg ix j (j + 1) = [getB ix j] := by
  rw [seg, List.drop_take, List.drop_eq_getElem_cons hjlen,
    show j + 1 - j = 1 from by omega, List.take_succ_cons, List.take_zero, getB,
    List.getD_eq_getElem ix 0 hjlen]

theorem getB_take (ix : Str) (k t : Nat) (h1 : t < k) (h2 : t < ix.length) :
    getB (ix.take k) t = getB ix t := by
  rw [getB, getB, List.getD_eq_getElem (ix.take k) 0 (by simp [List.length_take]; omega),
    List.getD_eq_getElem ix 0 h2]
  exact List.getElem_take ix

/-- The index-byte surgery of `incrementChildPriority` moves the first
occurrence of the byte from `j` to `k`. -/
theorem idxOf_rotation (ix : Str) (c : Nat) (j k : Nat)
    (hj : idxOf ix c = some j) (hk : k ≤ j) :
    idxOf (ix.take k ++ seg ix j (j + 1) ++ ((ix.take j).drop k) ++ ix.drop (j + 1)) c =
      some k := by
  obtain ⟨hjlen, hgetj, hbefore⟩ := (idxOf_eq_some_iff ix c j).mp hj
  have hseg := seg_single ix j hjlen
  have htklen : (ix.take k).length = k := by
    simp [List.length_take]
    omega
  rw [idxOf_eq_some_iff]
  refine ⟨?_, ?_, ?_⟩
  · simp [hseg, htklen]
  · rw [List.append_assoc, List.append_assoc,
      getB_append_right (ix.take k) _ k (by omega), htklen, Nat.sub_self, hseg]
    simpa [getB] using hgetj
  · intro t ht
    rw [List.append_assoc, List.append_assoc,
      getB_append_left _ _ t (by omega), getB_take ix k t ht (by omega)]
    exact hbefore t (by omega)

/-- The rotated index string keeps its length. -/
theorem length_rotation (ix : Str) (j k : Nat) (hk : k ≤ j) (hj : j < ix.length) :
    (ix.take k ++ seg ix j (j + 1) ++ ((ix.take j).drop k) ++ ix.drop (j + 1)).length =
      ix.length := by
  have h1 : (seg ix j (j + 1)).length = 1 := by
    simp [seg, List.length_drop, List.length_take]
    omega
  simp [List.length_append, h1, List.length_take, List.length_drop]
  omega

/-- Specification of the bubble loop: the result keeps the length, the
final position does not exceed the start, the travelling element arrives
at the final position, and every element of the result was in the input. -/
theorem bubbleLeft_spec (np : Nat) : ∀ (cs : List Node) (pr : Nat), np < cs.length →
    ((bubbleLeft cs pr np).1).length = cs.length ∧
    (bubbleLeft cs pr np).2 ≤ np ∧
    ((bubbleLeft cs pr np).1).getD (bubbleLeft cs pr np).2 default =
      cs.getD np default ∧
    (∀ x ∈ (bubbleLeft cs pr np).1, x ∈ cs) := by
  induction np with
  | zero =>
    intro cs pr hlen
    exact ⟨rfl, Nat.le_refl _, rfl, fun x hx => hx⟩
  | succ np' ih =>
    intro cs pr hlen
    rw [bubbleLeft]
    by_cases hb : (cs.getD np' default).priority < pr
    · rw [if_pos hb]
      set cs' := (cs.set np' (cs.getD (np' + 1) default)).set (np' + 1)
        (cs.getD np' default) with hcs'
      have hlen' : cs'.length = cs.length := by simp [hcs']
      have hnp' : np' < cs'.length := by omega
      obtain ⟨l1, l2, l3, l4⟩ := ih cs' pr hnp'
      refine ⟨by rw [l1, hlen'], by omega, ?_, ?_⟩
      · rw [l3, hcs']
        rw [List.getD_eq_getElem _ default (by simpa [hcs'] using hnp'),
          List.getElem_set_ne (by omega), List.getElem_set_self
            (by simpa using Nat.lt_of_succ_lt hlen)]
      · intro x hx
        have hx' := l4 x hx
        rw [hcs'] at hx'
        rcases List.mem_or_eq_of_mem_set hx' with h1 | h1
        · rcases List.mem_or_eq_of_mem_set h1 with h2 | h2
          · exact h2
          · rw [h2]; exact getD_mem_of_lt cs (np' + 1) hlen
        · rw [h1]; exact getD_mem_of_lt cs np' (Nat.lt_of_succ_lt hlen)
    · rw [if_neg hb]
      exact ⟨rfl, Nat.le_refl _, rfl, fun x hx => hx⟩

theorem getD_set_self (cs : List Node) (j : Nat) (x : Node) (hj : j < cs.length) :
    (cs.set j x).getD j default = x := by
  rw [List.getD_eq_getElem _ default (by simpa using hj),
    List.getElem_set_self (by simpa using hj)]

/-- `incrementChildPriority` never changes the fields the walk branches
on, apart from `children` and `indices`. -/
theorem icp_core (n : Node) (pos : Nat) :
    ((incrementChildPriority n pos).1).typo = n.typo ∧
    ((incrementChildPriority n pos).1).path = n.path ∧
    ((incrementChildPriority n pos).1).handle = n.handle ∧
    ((incrementChildPriority n pos).1).wildcard = n.wildcard := by
  cases n
  simp [incrementChildPriority, Node.setChildren, Node.setIndices]

/-- The children side of `incrementChildPriority`: same number of
children, the bumped child ends at the returned position, and every child
of the result is an original child or the bumped one. -/
theorem icp_children (n : Node) (pos : Nat) (hpos : pos < n.children.length) :
    ((incrementChildPriority n pos).1).children.length = n.children.length ∧
    (incrementChildPriority n pos).2 ≤ pos ∧
    ((incrementChildPriority n pos).1).children.getD
        (incrementChildPriority n pos).2 default =
      (n.children.getD pos default).setPriority
        ((n.children.getD pos default).priority + 1) ∧
    ∀ x ∈ ((incrementChildPriority n pos).1).children,
      x ∈ n.children ∨
        x = (n.children.getD pos default).setPriority
          ((n.children.getD pos default).priority + 1) := by
  have hset : (n.children.set pos ((n.children.getD pos default).setPriority
      ((n.children.getD pos default).priority + 1))).length = n.children.length := by
    simp
  obtain ⟨l1, l2, l3, l4⟩ := bubbleLeft_spec pos
    (n.children.set pos ((n.children.getD pos default).setPriority
      ((n.children.getD pos default).priority + 1)))
    ((n.children.getD pos default).priority + 1) (by rw [hset]; exact hpos)
  have hch : ((incrementChildPriority n pos).1).children =
      (bubbleLeft (n.children.set pos ((n.children.getD pos default).setPriority
        ((n.children.getD pos default).priority + 1)))
        ((n.children.getD pos default).priority + 1) pos).1 := by
    cases n
    simp [incrementChildPriority, Node.setChildren, Node.setIndices]
  have hpos2 : (incrementChildPriority n pos).2 =
      (bubbleLeft (n.children.set pos ((n.children.getD pos default).setPriority
        ((n.children.getD pos default).priority + 1)))
        ((n.children.getD pos default).priority + 1) pos).2 := by
    cases n
    simp [incrementChildPriority, Node.setChildren, Node.setIndices]
  refine ⟨by rw [hch, l1, hset], by rw [hpos2]; exact l2, ?_, ?_⟩
  · rw [hch, hpos2, l3, getD_set_self n.children pos _ hpos]
  · intro x hx
    rw [hch] at hx
    rcases List.mem_or_eq_of_mem_set (l4 x hx) with h1 | h1
    · exact Or.inl h1
    · exact Or.inr h1

/-- The indices side of `incrementChildPriority`: when the byte `c` is
first found at `pos`, the surgery keeps the length of `indices` and moves
the first occurrence of `c` to the returned position. -/
theorem icp_indices (n : Node) (pos : Nat) (c : Nat)
    (hpos : pos < n.children.length)
    (hfind : idxOf n.indices c = some pos) :
    ((incrementChildPriority n pos).1).indices.length = n.indices.length ∧
    idxOf ((incrementChildPriority n pos).1).indices c =
      some (incrementChildPriority n pos).2 := by
  obtain ⟨hjlen, _, _⟩ := (idxOf_eq_some_iff n.indices c pos).mp hfind
  have hle : (incrementChildPriority n pos).2 ≤ pos :=
    (icp_children n pos hpos).2.1
  have hix : ((incrementChildPriority n pos).1).indices =
      (if (incrementChildPriority n pos).2 ≠ pos then
        (n.indices.take (incrementChildPriority n pos).2) ++
          seg n.indices pos (pos + 1) ++
          ((n.indices.take pos).drop (incrementChildPriority n pos).2) ++
          n.indices.drop (pos + 1)
      else n.indices) := by
    cases n
    simp only [incrementChildPriority, Node.setChildren, Node.setIndices,
      Node.indices_mk, Node.children_mk]
  by_cases hne : (incrementChildPriority n pos).2 ≠ pos
  · rw [hix, if_pos hne]
    constructor
    · exact length_rotation n.indices pos (incrementChildPriority n pos).2 hle hjlen
    · exact idxOf_rotation n.indices c pos (incrementChildPriority n pos).2 hfind hle
  · rw [hix, if_neg hne]
    push_neg at hne
    exact ⟨rfl, by rw [hne]; exact hfind⟩

/-! #### Setter-projection lemmas -/

@[simp] theorem Node.typo_setTypo (a : Node) (x : NodeType) :
    (Node.setTypo a x).typo = x := by cases a; rfl

@[simp] theorem Node.path_setTypo (a : Node) (x : NodeType) :
    (Node.setTypo a x).path = a.path := by cases a; rfl

@[simp] theorem Node.nparams_setTypo (a : Node) (x : NodeType) :
    (Node.setTypo a x).nparams = a.nparams := by cases a; rfl

@[simp] theorem Node.indices_setTypo (a : Node) (x : NodeType) :
    (Node.setTypo a x).indices = a.indices := by cases a; rfl

@[simp] theorem Node.handle_setTypo (a : Node) (x : NodeType) :
    (Node.setTypo a x).handle = a.handle := by cases a; rfl

@[simp] theorem Node.priority_setTypo (a : Node) (x : NodeType) :
    (Node.setTypo a x).priority = a.priority := by cases a; rfl

@[simp] theorem Node.children_setTypo (a : Node) (x : NodeType) :
    (Node.setTypo a x).children = a.children := by cases a; rfl

@[simp] theorem Node.wildcard_setTypo (a : Node) (x : NodeType) :
    (Node.setTypo a x).wildcard = a.wildcard := by cases a; rfl

@[simp] theorem Node.typo_setPath (a : Node) (x : Str) :
    (Node.setPath a x).typo = a.typo := by cases a; rfl

@[simp] theorem Node.path_setPath (a : Node) (x : Str) :
    (Node.setPath a x).path = x := by cases a; rfl

@[simp] theorem Node.nparams_setPath (a : Node) (x : Str) :
    (Node.setPath a x).nparams = a.nparams := by cases a; rfl

@[simp] theorem Node.indices_setPath (a : Node) (x : Str) :
    (Node.setPath a x).indices = a.indices := by cases a; rfl

@[simp] theorem Node.handle_setPath (a : Node) (x : Str) :
    (Node.setPath a x).handle = a.handle := by cases a; rfl

@[simp] theorem Node.priority_setPath (a : Node) (x : Str) :
    (Node.setPath a x).priority = a.priority := by cases a; rfl

@[simp] theorem Node.children_setPath (a : Node) (x : Str) :
    (Node.setPath a x).children = a.children := by cases a; rfl

@[simp] theorem Node.wildcard_setPath (a : Node) (x : Str) :
    (Node.setPath a x).wildcard = a.wildcard := by cases a; rfl

@[simp] theorem Node.typo_setNparams (a : Node) (x : Nat) :
    (Node.setNparams a x).typo = a.typo := by cases a; rfl

@[simp] theorem Node.path_setNparams (a : Node) (x : Nat) :
    (Node.setNparams a x).path = a.path := by cases a; rfl

@[simp] theorem Node.nparams_setNparams (a : Node) (x : Nat) :
    (Node.setNparams a x).nparams = x := by cases a; rfl

@[simp] theorem Node.indices_setNparams (a : Node) (x : Nat) :
    (Node.setNparams a x).indices = a.indices := by cases a; rfl

@[simp] theorem Node.handle_setNparams (a : Node) (x : Nat) :
    (Node.setNparams a x).handle = a.handle := by cases a; rfl

@[simp] theorem Node.priority_setNparams (a : Node) (x : Nat) :
    (Node.setNparams a x).priority = a.priority := by cases a; rfl

@[simp] theorem Node.children_setNparams (a : Node) (x : Nat) :
    (Node.setNparams a x).children = a.children := by cases a; rfl

@[simp] theorem Node.wildcard_setNparams (a : Node) (x : Nat) :
    (Node.setNparams a x).wildcard = a.wildcard := by cases a; rfl

@[simp] theorem Node.typo_setIndices (a : Node) (x : Str) :
    (Node.setIndices a x).typo = a.typo := by cases a; rfl

@[simp] theorem Node.path_setIndices (a : Node) (x : Str) :
    (Node.setIndices a x).path = a.path := by cases a; rfl

@[simp] theorem Node.nparams_setIndices (a : Node) (x : Str) :
    (Node.setIndices a x).nparams = a.nparams := by cases a; rfl

@[simp] theorem Node.indices_setIndices (a : Node) (x : Str) :
    (Node.setIndices a x).indices = x := by cases a; rfl

@[simp] theorem Node.handle_setIndices (a : Node) (x : Str) :
    (Node.setIndices a x).handle = a.handle := by cases a; rfl

@[simp] theorem Node.priority_setIndices (a : Node) (x : Str) :
    (Node.setIndices a x).priority = a.priority := by cases a; rfl

@[simp] theorem Node.children_setIndices (a : Node) (x : Str) :
    (Node.setIndices a x).children = a.children := by cases a; rfl

@[simp] theorem Node.wildcard_setIndices (a : Node) (x : Str) :
    (Node.setIndices a x).wildcard = a.wildcard := by cases a; rfl

@[simp] theorem Node.typo_setHandle (a : Node) (x : Option Nat) :
    (Node.setHandle a x).typo = a.typo := by cases a; rfl

@[simp] theorem Node.path_setHandle (a : Node) (x : Option Nat) :
    (Node.setHandle a x).path = a.path := by cases a; rfl

@[simp] theorem Node.nparams_setHandle (a : Node) (x : Option Nat) :
    (Node.setHandle a x).nparams = a.nparams := by cases a; rfl

@[simp] theorem Node.indices_setHandle (a : Node) (x : Option Nat) :
    (Node.setHandle a x).indices = a.indices := by cases a; rfl

@[simp] theorem Node.handle_setHandle (a : Node) (x : Option Nat) :
    (Node.setHandle a x).handle = x := by cases a; rfl

@[simp] theorem Node.priority_setHandle (a : Node) (x : Option Nat) :
    (Node.setHandle a x).priority = a.priority := by cases a; rfl

@[simp] theorem Node.children_setHandle (a : Node) (x : Option Nat) :
    (Node.setHandle a x).children = a.children := by cases a; rfl

@[simp] theorem Node.wildcard_setHandle (a : Node) (x : Option Nat) :
    (Node.setHandle a x).wildcard = a.wildcard := by cases a; rfl

@[simp] theorem Node.typo_setPriority (a : Node) (x : Nat) :
    (Node.setPriority a x).typo = a.typo := by cases a; rfl

@[simp] theorem Node.path_setPriority (a : Node) (x : Nat) :
    (Node.setPriority a x).path = a.path := by cases a; rfl

@[simp] theorem Node.nparams_setPriority (a : Node) (x : Nat) :
    (Node.setPriority a x).nparams = a.nparams := by cases a; rfl

@[simp] theorem Node.indices_setPriority (a : Node) (x : Nat) :
    (Node.setPriority a x).indices = a.indices := by cases a; rfl

@[simp] theorem Node.handle_setPriority (a : Node) (x : Nat) :
    (Node.setPriority a x).handle = a.handle := by cases a; rfl

@[simp] theorem Node.priority_setPriority (a : Node) (x : Nat) :
    (Node.setPriority a x).priority = x := by cases a; rfl

@[simp] theorem Node.children_setPriority (a : Node) (x : Nat) :
    (Node.setPriority a x).children = a.children := by cases a; rfl

@[simp] theorem Node.wildcard_setPriority (a : Node) (x : Nat) :
    (Node.setPriority a x).wildcard = a.wildcard := by cases a; rfl

@[simp] theorem Node.typo_setChildren (a : Node) (x : List Node) :
    (Node.setChildren a x).typo = a.typo := by cases a; rfl

@[simp] theorem Node.path_setChildren (a : Node) (x : List Node) :
    (Node.setChildren a x).path = a.path := by cases a; rfl

@[simp] theorem Node.nparams_setChildren (a : Node) (x : List Node) :
    (Node.setChildren a x).nparams = a.nparams := by cases a; rfl

@[simp] theorem Node.indices_setChildren (a : Node) (x : List Node) :
    (Node.setChildren a x).indices = a.indices := by cases a; rfl

@[simp] theorem Node.handle_setChildren (a : Node) (x : List Node) :
    (Node.setChildren a x).handle = a.handle := by cases a; rfl

@[simp] theorem Node.priority_setChildren (a : Node) (x : List Node) :
    (Node.setChildren a x).priority = a.priority := by cases a; rfl

@[simp] theorem Node.children_setChildren (a : Node) (x : List Node) :
    (Node.setChildren a x).children = x := by cases a; rfl

@[simp] theorem Node.wildcard_setChildren (a : Node) (x : List Node) :
    (Node.setChildren a x).wildcard = a.wildcard := by cases a; rfl

@[simp] theorem Node.typo_setWildcard (a : Node) (x : Bool) :
    (Node.setWildcard a x).typo = a.typo := by cases a; rfl

@[simp] theorem Node.path_setWildcard (a : Node) (x : Bool) :
    (Node.setWildcard a x).path = a.path := by cases a; rfl

@[simp] theorem Node.nparams_setWildcard (a : Node) (x : Bool) :
    (Node.setWildcard a x).nparams = a.nparams := by cases a; rfl

@[simp] theorem Node.indices_setWildcard (a : Node) (x : Bool) :
    (Node.setWildcard a x).indices = a.indices := by cases a; rfl

@[simp] theorem Node.handle_setWildcard (a : Node) (x : Bool) :
    (Node.setWildcard a x).handle = a.handle := by cases a; rfl

@[simp] theorem Node.priority_setWildcard (a : Node) (x : Bool) :
    (Node.setWildcard a x).priority = a.priority := by cases a; rfl

@[simp] theorem Node.children_setWildcard (a : Node) (x : Bool) :
    (Node.setWildcard a x).children = a.children := by cases a; rfl

@[simp] theorem Node.wildcard_setWildcard (a : Node) (x : Bool) :
    (Node.setWildcard a x).wildcard = x := by cases a; rfl

/-! #### One-step evaluation lemmas for the second walk -/

theorem ifSetNp_typo (c : Prop) [Decidable c] (a : Node) (x : Nat) :
    (if c then a.setNparams x else a).typo = a.typo := by split <;> simp

theorem ifSetNp_path (c : Prop) [Decidable c] (a : Node) (x : Nat) :
    (if c then a.setNparams x else a).path = a.path := by split <;> simp

theorem ifSetNp_indices (c : Prop) [Decidable c] (a : Node) (x : Nat) :
    (if c then a.setNparams x else a).indices = a.indices := by split <;> simp

theorem ifSetNp_handle (c : Prop) [Decidable c] (a : Node) (x : Nat) :
    (if c then a.setNparams x else a).handle = a.handle := by split <;> simp

theorem ifSetNp_children (c : Prop) [Decidable c] (a : Node) (x : Nat) :
    (if c then a.setNparams x else a).children = a.children := by split <;> simp

theorem ifSetNp_wildcard (c : Prop) [Decidable c] (a : Node) (x : Nat) :
    (if c then a.setNparams x else a).wildcard = a.wildcard := by split <;> simp

theorem ifSetNp_coreEq (c : Prop) [Decidable c] (a : Node) (x : Nat) :
    coreEq (if c then a.setNparams x else a) a := by
  split
  · exact coreEq_setNparams a x
  · exact coreEq_refl a

/-- Arrival at the registered node: the remaining path equals the node
path and the handler is present, so the walk panics with the duplicate
message. -/
theorem step_attach (f : Nat) (m : Node) (u2 ab : Str) (h2 mp hh : Nat)
    (hpath : m.path = u2) (hhd : m.handle = some hh) :
    registerF (f + 1) m u2 ab h2 mp = .error (dupMsg ab) := by
  simp only [registerF]
  simp [ifSetNp_path, ifSetNp_handle, hpath, hhd, commonPrefixLen_self]


/-- Wildcard-flag descent of the walk: the conditions hold for the first
child, so the walk descends and propagates the child's error. -/
theorem step_wild (f : Nat) (m : Node) (u2 ab : Str) (h2 mp : Nat) (e : Str)
    (hw : m.wildcard = true)
    (hcpl : commonPrefixLen u2 m.path = m.path.length)
    (hlt : m.path.length < u2.length)
    (hcond1 : (u2.drop m.path.length).length ≥ (m.children.getD 0 default).path.length)
    (hcond2 : (u2.drop m.path.length).take (m.children.getD 0 default).path.length =
        (m.children.getD 0 default).path)
    (hcond3 : (m.children.getD 0 default).path.length ≥ (u2.drop m.path.length).length ∨
        getB (u2.drop m.path.length) (m.children.getD 0 default).path.length = slashB)
    (hrec : ∀ d, coreEq d (m.children.getD 0 default) →
      registerF f d (u2.drop m.path.length) ab h2 (mp - 1) = .error e) :
    registerF (f + 1) m u2 ab h2 mp = .error e := by
  have hd := hrec
    (if mp > ((m.children.getD 0 default).setPriority
        ((m.children.getD 0 default).priority + 1)).nparams then
      ((m.children.getD 0 default).setPriority
        ((m.children.getD 0 default).priority + 1)).setNparams mp
    else (m.children.getD 0 default).setPriority
        ((m.children.getD 0 default).priority + 1))
    (coreEq_trans (ifSetNp_coreEq _ _ _) (coreEq_setPriority _ _))
  simp only [registerF]
  simp at hd hcond1 hcond2 hcond3
  simp [ifSetNp_path, ifSetNp_wildcard, ifSetNp_children, hcpl, hw, hlt, hcond1,
    hcond2, hcond3, hd]

/-- Slash-after-param descent of the walk. -/
theorem step_pslash (f : Nat) (m : Node) (u2 ab : Str) (h2 mp : Nat) (e : Str)
    (hw : m.wildcard = false)
    (hcpl : commonPrefixLen u2 m.path = m.path.length)
    (hlt : m.path.length < u2.length)
    (hty : m.typo = .param)
    (hc : getB (u2.drop m.path.length) 0 = slashB)
    (hlen1 : m.children.length = 1)
    (hrec : ∀ d, coreEq d (m.children.getD 0 default) →
      registerF f d (u2.drop m.path.length) ab h2 mp = .error e) :
    registerF (f + 1) m u2 ab h2 mp = .error e := by
  have hd := hrec ((m.children.getD 0 default).setPriority
      ((m.children.getD 0 default).priority + 1)) (coreEq_setPriority _ _)
  simp only [registerF]
  simp at hd
  have h0 : (0 : Nat) < m.children.length := by omega
  have hb : m.children[0]?.getD default = m.children[0] := by
    rw [List.getElem?_eq_getElem h0]
    rfl
  rw [hb] at hd
  simp [ifSetNp_path, ifSetNp_wildcard, ifSetNp_children, ifSetNp_typo, hcpl, hw,
    hlt, hty, hc, hlen1, hd]

/-- Indexed-child descent of the walk: the byte is found in `indices`, the
child's priority is bumped and bubbled, and the walk descends into it. -/
theorem step_idx (f : Nat) (m : Node) (u2 ab : Str) (h2 mp : Nat) (e : Str) (j : Nat)
    (hw : m.wildcard = false)
    (hcpl : commonPrefixLen u2 m.path = m.path.length)
    (hlt : m.path.length < u2.length)
    (hnps : ¬(m.typo = .param ∧ getB (u2.drop m.path.length) 0 = slashB ∧
      m.children.length = 1))
    (hfind : idxOf m.indices (getB (u2.drop m.path.length) 0) = some j)
    (hj : j < m.children.length)
    (hrec : ∀ d, coreEq d (m.children.getD j default) →
      registerF f d (u2.drop m.path.length) ab h2 mp = .error e) :
    registerF (f + 1) m u2 ab h2 mp = .error e := by
  simp only [registerF]
  set N := if mp > m.nparams then m.setNparams mp else m with hN
  have hNp : N.path = m.path := by rw [hN]; exact ifSetNp_path _ _ _
  have hNt : N.typo = m.typo := by rw [hN]; exact ifSetNp_typo _ _ _
  have hNc : N.children = m.children := by rw [hN]; exact ifSetNp_children _ _ _
  have hNi : N.indices = m.indices := by rw [hN]; exact ifSetNp_indices _ _ _
  have hNw : N.wildcard = m.wildcard := by rw [hN]; exact ifSetNp_wildcard _ _ _
  have hjN : j < N.children.length := by rw [hNc]; exact hj
  obtain ⟨_, _, hget, _⟩ := icp_children N j hjN
  have hd := hrec ((N.children.getD j default).setPriority
      ((N.children.getD j default).priority + 1))
    (by rw [hNc]; exact coreEq_setPriority _ _)
  rw [← hget] at hd
  simp at hd
  simp [hNp, hNt, hNc, hNi, hNw, hcpl, hw, hlt, hnps, hfind, hd]

/-! #### Segment decomposition and scan lemmas -/

theorem commonPrefixLen_nil (s : Str) : commonPrefixLen s [] = 0 := by
  cases s <;> rfl

theorem seg_self (s : Str) (a : Nat) : seg s a a = [] := by
  simp [seg, List.drop_take]

theorem seg_full (s : Str) (off : Nat) : seg s off s.length = s.drop off := by
  simp [seg]

theorem seg_drop_take (s : Str) (x e : Nat) : seg s x e = (s.drop x).take (e - x) := by
  simp [seg, List.drop_take]

theorem seg_length (s : Str) (off i : Nat) (h1 : off ≤ i) (h2 : i ≤ s.length) :
    (seg s off i).length = i - off := by
  simp [seg, List.length_drop, List.length_take]
  omega

theorem seg_append_drop (s : Str) (off x : Nat) (h1 : off ≤ x) (h2 : x ≤ s.length) :
    seg s off x ++ s.drop x = s.drop off := by
  rw [seg_drop_take]
  have h3 : s.drop x = (s.drop off).drop (x - off) := by
    rw [List.drop_drop]
    congr 1
    omega
  rw [h3, List.take_append_drop]

theorem drop_ne_nil (s : Str) (x : Nat) (h : x < s.length) : s.drop x ≠ [] := by
  intro hc
  have := List.drop_eq_nil_iff.mp hc
  omega

/-- What a successful wildcard-name scan certifies: the end lies between
the start and the string end, the scanned bytes are neither `/` nor
wildcards, and the scan stopped at the string end or at a `/`. -/
theorem scanWildEnd_spec : ∀ (fuel : Nat) (s : Str) (e0 e : Nat),
    scanWildEnd fuel s e0 = some e →
    e0 ≤ e ∧ (e ≤ s.length ∨ e = e0) ∧
    (∀ j, e0 ≤ j → j < e → getB s j ≠ slashB ∧ getB s j ≠ colonB ∧
      getB s j ≠ starB) ∧
    (s.length ≤ e ∨ getB s e = slashB) := by
  intro fuel
  induction fuel with
  | zero => intro s e0 e h; simp [scanWildEnd] at h
  | succ fu ih =>
    intro s e0 e h
    rw [scanWildEnd] at h
    by_cases h1 : e0 < s.length ∧ getB s e0 ≠ slashB
    · rw [if_pos h1] at h
      by_cases h2 : getB s e0 = colonB ∨ getB s e0 = starB
      · rw [if_pos h2] at h; exact absurd h (by simp)
      · rw [if_neg h2] at h
        obtain ⟨k1, k2, k3, k4⟩ := ih s (e0 + 1) e h
        push_neg at h2
        refine ⟨by omega, by omega, ?_, k4⟩
        intro j hj1 hj2
        by_cases hje : j = e0
        · subst hje; exact ⟨h1.2, h2.1, h2.2⟩
        · exact k3 j (by omega) hj2
    · rw [if_neg h1] at h
      have hee : e0 = e := by injection h
      push_neg at h1
      refine ⟨by omega, Or.inr hee.symm, fun j hj1 hj2 => by omega, ?_⟩
      by_cases he2 : e < s.length
      · exact Or.inr (by rw [← hee]; exact h1 (by omega))
      · exact Or.inl (by omega)

/-- With wildcards still pending but none left in the path, `insertChild`
fails (the out-of-range panic of the source). -/
theorem insertChildF_allstatic_error : ∀ (fuel : Nat) (n : Node) (numP : Nat)
    (up ab : Str) (off i h1 : Nat), numP ≠ 0 →
    (∀ j, i ≤ j → j < up.length → getB up j ≠ colonB ∧ getB up j ≠ starB) →
    ∃ msg, insertChildF fuel n numP up ab off i h1 = .error msg := by
  intro fuel
  induction fuel with
  | zero => intro n numP up ab off i h1 _ _; exact ⟨fuelMsg, rfl⟩
  | succ fu ih =>
    intro n numP up ab off i h1 hnp hall
    by_cases hi : i < up.length
    · rw [insertChildF_skip fu n numP up ab off i h1 hnp hi (hall i (Nat.le_refl _) hi)]
      exact ih n numP up ab off (i + 1) h1 hnp (fun j hj1 hj2 => hall j (by omega) hj2)
    · refine ⟨oobMsg, ?_⟩
      simp only [insertChildF]
      rw [if_neg hnp, if_neg hi]

theorem countParams_pos (s : Str) (c : Nat) (hc : c ∈ s)
    (hw : c = colonB ∨ c = starB) : 1 ≤ countParams s := by
  unfold countParams
  refine List.countP_pos.mpr ⟨c, hc, ?_⟩
  rcases hw with rfl | rfl <;> simp

theorem getB_drop_mem (s : Str) (a j : Nat) (h1 : a ≤ j) (h2 : j < s.length) :
    getB s j ∈ s.drop a := by
  rw [show getB s j = getB (s.drop a) (j - a) by
    rw [getB_drop, show a + (j - a) = j by omega]]
  exact getB_mem (s.drop a) (j - a) (by simp [List.length_drop]; omega)

theorem allNodesB_self (p : Node → Bool) (n : Node) (h : allNodesB p n = true) :
    p n = true := by
  rw [allNodesB_unfold, Bool.and_eq_true] at h
  exact h.1

theorem wf9B_flag_of_no_children (n : Node) (h : wf9B n = true)
    (hc : n.children = []) : n.wildcard = false := by
  simp [wf9B, hc] at h
  exact h.1.1

theorem getB_seg_mem (s : Str) (a b j : Nat) (h1 : a ≤ j) (h2 : j < b)
    (h3 : b ≤ s.length) : getB s j ∈ seg s a b := by
  rw [seg_drop_take]
  rw [show getB s j = getB ((s.drop a).take (b - a)) (j - a) by
    rw [getB_take _ _ _ (by omega) (by simp [List.length_drop]; omega), getB_drop,
      show a + (j - a) = j by omega]]
  exact getB_mem _ (j - a) (by simp [List.length_take, List.length_drop]; omega)

theorem allNodesB_wf9B_eqfields (a b : Node) (ht : a.typo = b.typo)
    (hi : a.indices = b.indices) (hc : a.children = b.children)
    (hw : a.wildcard = b.wildcard) :
    allNodesB wf9B a = allNodesB wf9B b := by
  rw [allNodesB_unfold, allNodesB_unfold, hc]
  congr 1
  simp [wf9B, ht, hi, hc, hw]

/-- The heart of C9 for the chains `insertChild` builds: a successful
`insertChild` leaves a subtree whose re-walk with the same remaining path
panics with the duplicate message; the subtree's root keeps the node kind,
its path is the scanned segment, and it satisfies the structural
invariant. -/
theorem insertChildF_rewalk : ∀ (fuel : Nat) (n : Node) (numP : Nat) (up ab : Str)
    (off i h1 : Nat) (ch : Node),
    insertChildF fuel n numP up ab off i h1 = .ok ch →
    off ≤ up.length →
    (n.path = [] ∨ 0 < i) →
    (∀ j, i ≤ j → j < off → getB up j ≠ colonB ∧ getB up j ≠ starB) →
    (off = 0 ∨ getB up off = slashB) →
    allNodesB wf9B n = true →
    ch.typo = n.typo ∧
    (ch.path = seg up off (off + ch.path.length) ∧ off + ch.path.length ≤ up.length) ∧
    allNodesB wf9B ch = true ∧
    (off < up.length → ch.children ≠ [] ∨ ch.path ≠ []) ∧
    (∀ (m : Node) (h2 mp2 fuel2 : Nat), coreEq m ch → nodeSize ch + 1 ≤ fuel2 →
      registerF fuel2 m (up.drop off) ab h2 mp2 = .error (dupMsg ab)) := by
  intro fuel
  induction fuel with
  | zero =>
    intro n numP up ab off i h1 ch hok
    simp [insertChildF] at hok
  | succ fu ih =>
    intro n numP up ab off i h1 ch hok hoff hpz hscan hoffb hwf
    by_cases hnp : numP = 0
    · -- leaf exit: the node takes the remaining path and the handler
      rw [insertChildF, if_pos hnp] at hok
      injection hok with hok
      subst hok
      refine ⟨by simp, ⟨?_, ?_⟩, ?_, ?_, ?_⟩
      · simp [List.length_drop, show off + (up.length - off) = up.length by omega,
          seg_full]
      · simp [List.length_drop]
        omega
      · rw [allNodesB_wf9B_eqfields _ n (by simp) (by simp) (by simp) (by simp)]
        exact hwf
      · intro hlt
        refine Or.inr ?_
        simp only [Node.path_setHandle, Node.path_setPath]
        exact drop_ne_nil up off hlt
      · intro m h2 mp2 fuel2 hm hfuel
        obtain ⟨f2, rfl⟩ : ∃ f2, fuel2 = f2 + 1 := ⟨fuel2 - 1, by omega⟩
        exact step_attach f2 m (up.drop off) ab h2 mp2 h1
          (by rw [hm.2.1]; simp) (by rw [hm.2.2.2.1]; simp)
    · by_cases hi : i < up.length
      · by_cases hcw : getB up i ≠ colonB ∧ getB up i ≠ starB
        · -- scan skip
          rw [insertChildF_skip fu n numP up ab off i h1 hnp hi hcw] at hok
          exact ih n numP up ab off (i + 1) h1 ch hok hoff (Or.inr (by omega))
            (fun j hj1 hj2 => hscan j (by omega) hj2) hoffb hwf
        · -- a wildcard starts at i
          rw [insertChildF, if_neg hnp, if_pos hi, if_neg hcw] at hok
          have off_le_i : off ≤ i := by
            by_contra hlt
            push_neg at hlt
            exact hcw (hscan i (Nat.le_refl i) hlt)
          cases hscanE : scanWildEnd (up.length + 1) up (i + 1) with
          | none => rw [hscanE] at hok; exact absurd hok (by simp)
          | some e =>
            rw [hscanE] at hok
            dsimp only at hok
            obtain ⟨he1, he2, he3, he4⟩ := scanWildEnd_spec (up.length + 1) up (i + 1) e hscanE
            have heLen : e ≤ up.length := by
              rcases he2 with h | h
              · exact h
              · omega
            by_cases hch : n.children.length > 0
            · rw [if_pos hch] at hok
              exact absurd hok (by simp)
            rw [if_neg hch] at hok
            by_cases he2' : e - i < 2
            · rw [if_pos he2'] at hok
              exact absurd hok (by simp)
            rw [if_neg he2'] at hok
            by_cases hcc : getB up i = colonB
            · rw [if_pos hcc] at hok
              by_cases helt : e < up.length
              · -- param segment with a continuation after the slash at e
                rw [if_pos helt] at hok
                cases hrecE : insertChildF fu (.mk .static [] (numP - 1) [] none 1 [] false)
                    (numP - 1) up ab e (i + 1) h1 with
                | error msg =>
                  rw [hrecE] at hok
                  exact absurd hok (by simp)
                | ok g =>
                  rw [hrecE] at hok
                  injection hok with hok
                  obtain ⟨gtypo, ⟨gpath, gplen⟩, gwf, gf, grw⟩ :=
                    ih _ _ up ab e (i + 1) h1 g hrecE heLen (Or.inl rfl)
                      (fun j hj1 hj2 => ⟨(he3 j hj1 hj2).2.1, (he3 j hj1 hj2).2.2⟩)
                      (Or.inr (he4.resolve_left (by omega))) rfl
                  subst hok
                  simp only [Node.typo_mk] at gtypo
                  have hslash : getB up e = slashB := he4.resolve_left (by omega)
                  have hO1a : off ≤ (if 0 < i then i else off) := by split <;> omega
                  have hO1b : (if 0 < i then i else off) ≤ i := by split <;> omega
                  have hO1e : (if 0 < i then i else off) < e := by
                    split <;> omega
                  have hF1 : ((if 0 < i then n.setPath (seg up off i) else n)).path =
                      seg up off (if 0 < i then i else off) := by
                    split
                    · simp
                    · rcases hpz with hp | hp
                      · rw [hp, seg_self]
                      · omega
                  have hF2 : ((if 0 < i then n.setPath (seg up off i) else n)).typo =
                      n.typo := by
                    split <;> simp
                  have hlen1 : (seg up off (if 0 < i then i else off)).length =
                      (if 0 < i then i else off) - off :=
                    seg_length up off _ hO1a (by omega)
                  have hlen2 : (seg up (if 0 < i then i else off) e).length =
                      e - (if 0 < i then i else off) :=
                    seg_length up _ e (by omega) (by omega)
                  refine ⟨by simp [hF2], ⟨?_, ?_⟩, ?_, ?_, ?_⟩
                  · simp only [Node.path_setWildcard, Node.path_setChildren, hF1, hlen1]
                    rw [show off + ((if 0 < i then i else off) - off) =
                      (if 0 < i then i else off) by omega]
                  · simp only [Node.path_setWildcard, Node.path_setChildren, hF1, hlen1]
                    omega
                  · have gwf2 := gwf
                    rw [allNodesB_unfold, Bool.and_eq_true] at gwf2
                    obtain ⟨gl, glist⟩ := gwf2
                    simp [wf9B, gtypo] at gl
                    rw [allNodesB_unfold, Bool.and_eq_true]
                    constructor
                    · simp [wf9B]
                      exact countParams_pos _ _
                        (getB_seg_mem up _ e i hO1b (by omega) heLen) (Or.inl hcc)
                    · simp [allListB, allNodesB_unfold, wf9B, gtypo, gl, glist,
                        Node.setPath, Node.setChildren]
                      exact gl.2
                  · intro _
                    simp
                  · intro m h2 mp2 fuel2 hm hfuel
                    have hsz : nodeSize (((if 0 < i then n.setPath (seg up off i) else
                        n).setChildren
                        [((Node.mk NodeType.param [] numP [] none 1 [] false).setPath
                          (seg up (if 0 < i then i else off) e)).setChildren
                            [g]]).setWildcard true) = nodeSize g + 4 := by
                      rw [nodeSize_eq_children]
                      simp [nodesSize, nodeSize_eq_children]
                    rw [hsz] at hfuel
                    have hmpath : m.path = seg up off (if 0 < i then i else off) := by
                      rw [hm.2.1]
                      simp [hF1]
                    have hmw : m.wildcard = true := by
                      rw [hm.2.2.2.2.2]
                      simp
                    have hmch : m.children =
                        [((Node.mk NodeType.param [] numP [] none 1 [] false).setPath
                          (seg up (if 0 < i then i else off) e)).setChildren [g]] := by
                      rw [hm.2.2.2.2.1]
                      simp
                    have hdec1 : seg up off (if 0 < i then i else off) ++
                        up.drop (if 0 < i then i else off) = up.drop off :=
                      seg_append_drop up off _ hO1a (by omega)
                    have hdec2 : seg up (if 0 < i then i else off) e ++ up.drop e =
                        up.drop (if 0 < i then i else off) :=
                      seg_append_drop up _ e (by omega) (by omega)
                    have hdrop1 : (up.drop off).drop m.path.length =
                        up.drop (if 0 < i then i else off) := by
                      rw [hmpath, hlen1, List.drop_drop]
                      congr 1
                      omega
                    obtain ⟨f2, rfl⟩ : ∃ f2, fuel2 = f2 + 1 := ⟨fuel2 - 1, by omega⟩
                    apply step_wild f2 m (up.drop off) ab h2 mp2 (dupMsg ab) hmw
                    · rw [hmpath]
                      conv_lhs => rw [← hdec1]
                      exact commonPrefixLen_append _ _
                    · rw [hmpath, hlen1]
                      simp [List.length_drop]
                      omega
                    · rw [hdrop1, hmch]
                      simp only [List.getD_cons_zero]
                      simp [hlen2, List.length_drop]
                      omega
                    · rw [hdrop1, hmch]
                      simp only [List.getD_cons_zero]
                      simp only [Node.path_setChildren, Node.path_setPath, hlen2]
                      rw [seg_drop_take]
                    · rw [hdrop1, hmch]
                      simp only [List.getD_cons_zero]
                      simp only [Node.path_setChildren, Node.path_setPath, hlen2]
                      refine Or.inr ?_
                      rw [getB_drop, show (if 0 < i then i else off) +
                        (e - (if 0 < i then i else off)) = e by omega]
                      exact hslash
                    · intro d hd
                      rw [hmch] at hd
                      simp only [List.getD_cons_zero] at hd
                      rw [hdrop1]
                      obtain ⟨f3, rfl⟩ : ∃ f3, f2 = f3 + 1 := ⟨f2 - 1, by omega⟩
                      have hdpath : d.path = seg up (if 0 < i then i else off) e := by
                        rw [hd.2.1]
                        simp
                      have hdch : d.children = [g] := by
                        rw [hd.2.2.2.2.1]
                        simp
                      have hdrop2 : (up.drop (if 0 < i then i else off)).drop
                          d.path.length = up.drop e := by
                        rw [hdpath, hlen2, List.drop_drop]
                        congr 1
                        omega
                      apply step_pslash f3 d (up.drop (if 0 < i then i else off)) ab h2
                        (mp2 - 1) (dupMsg ab)
                      · rw [hd.2.2.2.2.2]
                        simp
                      · rw [hdpath]
                        conv_lhs => rw [← hdec2]
                        exact commonPrefixLen_append _ _
                      · rw [hdpath, hlen2]
                        simp [List.length_drop]
                        omega
                      · rw [hd.1]
                        simp
                      · rw [hdrop2, getB_drop, Nat.add_zero]
                        exact hslash
                      · rw [hdch]
                        rfl
                      · intro d2 hd2
                        rw [hdrop2]
                        rw [hdch] at hd2
                        simp only [List.getD_cons_zero] at hd2
                        exact grw d2 h2 (mp2 - 1) f3 hd2 (by omega)
              · -- param segment ending the pattern
                rw [if_neg helt] at hok
                have heq : e = up.length := by omega
                by_cases hnp1 : numP - 1 = 0
                · cases fu with
                  | zero => simp [insertChildF] at hok
                  | succ fu2 =>
                    rw [insertChildF, if_pos hnp1] at hok
                    dsimp only at hok
                    injection hok with hok
                    subst hok
                    have hO1a : off ≤ (if 0 < i then i else off) := by split <;> omega
                    have hO1b : (if 0 < i then i else off) ≤ i := by split <;> omega
                    have hO1l : (if 0 < i then i else off) < up.length := by omega
                    have hF1 : ((if 0 < i then n.setPath (seg up off i) else n)).path =
                        seg up off (if 0 < i then i else off) := by
                      split
                      · simp
                      · rcases hpz with hp | hp
                        · rw [hp, seg_self]
                        · omega
                    have hF2 : ((if 0 < i then n.setPath (seg up off i) else n)).typo =
                        n.typo := by
                      split <;> simp
                    have hlen1 : (seg up off (if 0 < i then i else off)).length =
                        (if 0 < i then i else off) - off :=
                      seg_length up off _ hO1a (by omega)
                    refine ⟨by simp [hF2], ⟨?_, ?_⟩, ?_, ?_, ?_⟩
                    · simp only [Node.path_setWildcard, Node.path_setChildren, hF1,
                        hlen1]
                      rw [show off + ((if 0 < i then i else off) - off) =
                        (if 0 < i then i else off) by omega]
                    · simp only [Node.path_setWildcard, Node.path_setChildren, hF1,
                        hlen1]
                      omega
                    · rw [allNodesB_unfold, Bool.and_eq_true]
                      constructor
                      · simp [wf9B]
                        exact countParams_pos _ _
                          (getB_drop_mem up _ i hO1b (by omega)) (Or.inl hcc)
                      · simp [allListB, allNodesB_unfold, wf9B, Node.setPath,
                          Node.setHandle]
                    · intro _
                      simp
                    · intro m h2 mp2 fuel2 hm hfuel
                      have hsz : nodeSize ((((if 0 < i then n.setPath (seg up off i)
                          else n)).setChildren
                          [((Node.mk NodeType.param [] numP [] none 1 [] false).setPath
                            (up.drop (if 0 < i then i else off))).setHandle
                              (some h1)]).setWildcard true) = 3 := by
                        rw [nodeSize_eq_children]
                        simp [nodesSize, nodeSize_eq_children]
                      rw [hsz] at hfuel
                      have hmpath : m.path = seg up off (if 0 < i then i else off) := by
                        rw [hm.2.1]
                        simp [hF1]
                      have hmw : m.wildcard = true := by
                        rw [hm.2.2.2.2.2]
                        simp
                      have hmch : m.children =
                          [((Node.mk NodeType.param [] numP [] none 1 [] false).setPath
                            (up.drop (if 0 < i then i else off))).setHandle
                              (some h1)] := by
                        rw [hm.2.2.2.2.1]
                        simp
                      have hdec1 : seg up off (if 0 < i then i else off) ++
                          up.drop (if 0 < i then i else off) = up.drop off :=
                        seg_append_drop up off _ hO1a (by omega)
                      have hdrop1 : (up.drop off).drop m.path.length =
                          up.drop (if 0 < i then i else off) := by
                        rw [hmpath, hlen1, List.drop_drop]
                        congr 1
                        omega
                      obtain ⟨f2, rfl⟩ : ∃ f2, fuel2 = f2 + 1 := ⟨fuel2 - 1, by omega⟩
                      apply step_wild f2 m (up.drop off) ab h2 mp2 (dupMsg ab) hmw
                      · rw [hmpath]
                        conv_lhs => rw [← hdec1]
                        exact commonPrefixLen_append _ _
                      · rw [hmpath, hlen1]
                        simp [List.length_drop]
                        omega
                      · rw [hdrop1, hmch]
                        simp only [List.getD_cons_zero]
                        simp
                      · rw [hdrop1, hmch]
                        simp only [List.getD_cons_zero]
                        simp only [Node.path_setHandle, Node.path_setPath]
                        exact List.take_length _
                      · rw [hdrop1, hmch]
                        simp only [List.getD_cons_zero]
                        simp
                      · intro d hd
                        rw [hmch] at hd
                        simp only [List.getD_cons_zero] at hd
                        rw [hdrop1]
                        obtain ⟨f3, rfl⟩ : ∃ f3, f2 = f3 + 1 := ⟨f2 - 1, by omega⟩
                        have hdpath : d.path =
                            up.drop (if 0 < i then i else off) := by
                          rw [hd.2.1]
                          simp
                        apply step_attach f3 d _ ab h2 (mp2 - 1) h1 hdpath
                        rw [hd.2.2.2.1]
                        simp
                · obtain ⟨msg, hmsg⟩ := insertChildF_allstatic_error fu
                    (Node.mk NodeType.param [] numP [] none 1 [] false) (numP - 1) up ab
                    (if 0 < i then i else off) (i + 1) h1 hnp1
                    (fun j hj1 hj2 => ⟨(he3 j hj1 (by omega)).2.1,
                      (he3 j hj1 (by omega)).2.2⟩)
                  rw [hmsg] at hok
                  exact absurd hok (by simp)
            · -- catch-all segment
              rw [if_neg hcc] at hok
              by_cases hca1 : e ≠ up.length ∨ numP > 1
              · rw [if_pos hca1] at hok
                exact absurd hok (by simp)
              rw [if_neg hca1] at hok
              by_cases hca2 : n.path.length > 0 ∧ n.path.getLast? = some slashB
              · rw [if_pos hca2] at hok
                exact absurd hok (by simp)
              rw [if_neg hca2] at hok
              by_cases hca3 : i = 0
              · rw [if_pos hca3] at hok
                exact absurd hok (by simp)
              rw [if_neg hca3] at hok
              by_cases hca4 : getB up (i - 1) ≠ slashB
              · rw [if_pos hca4] at hok
                exact absurd hok (by simp)
              rw [if_neg hca4] at hok
              push_neg at hca4
              injection hok with hok
              subst hok
              have hstar : getB up i = starB := by
                rcases (by push_neg at hcw; exact hcw :
                  getB up i ≠ colonB → getB up i = starB) hcc with h
                exact h
              have hi1off : off ≤ i - 1 := by
                rcases Nat.lt_or_ge off i with h | h
                · omega
                · have hoi : off = i := by omega
                  rcases hoffb with h0 | hsl
                  · omega
                  · rw [hoi] at hsl
                    rw [hsl] at hstar
                    exact absurd hstar (by decide)
              have hi1len : i - 1 < up.length := by omega
              have hlen1 : (seg up off (i - 1)).length = (i - 1) - off :=
                seg_length up off _ hi1off (by omega)
              refine ⟨by simp, ⟨?_, ?_⟩, ?_, ?_, ?_⟩
              · simp only [Node.path_setChildren, Node.path_setIndices,
                  Node.path_setPath, hlen1]
                rw [show off + ((i - 1) - off) = i - 1 by omega]
              · simp only [Node.path_setChildren, Node.path_setIndices,
                  Node.path_setPath, hlen1]
                omega
              · have hnw : n.wildcard = false :=
                  wf9B_flag_of_no_children n (allNodesB_self wf9B n hwf)
                    (by cases hcn : n.children
                        · rfl
                        · rw [hcn] at hch
                          simp at hch)
                rw [allNodesB_unfold, Bool.and_eq_true]
                constructor
                · simp [wf9B]
                  exact Or.inl hnw
                · simp [allListB, allNodesB_unfold, wf9B]
                  exact countParams_pos _ _
                    (getB_drop_mem up (i - 1) i (by omega) (by omega)) (Or.inr hstar)
              · intro _
                simp
              · intro m h2 mp2 fuel2 hm hfuel
                have hsz : nodeSize (((n.setPath (seg up off (i - 1))).setIndices
                    [getB up (i - 1)]).setChildren
                    [Node.mk NodeType.wildcard [] 1 [] none 1
                      [Node.mk NodeType.wildcard (up.drop (i - 1)) 1 [] (some h1) 1 []
                        false] true]) = 5 := by
                  rw [nodeSize_eq_children]
                  simp [nodesSize, nodeSize]
                rw [hsz] at hfuel
                have hmpath : m.path = seg up off (i - 1) := by
                  rw [hm.2.1]
                  simp
                have hmw : m.wildcard = n.wildcard := by
                  rw [hm.2.2.2.2.2]
                  simp
                have hmch : m.children = [Node.mk NodeType.wildcard [] 1 [] none 1
                    [Node.mk NodeType.wildcard (up.drop (i - 1)) 1 [] (some h1) 1 []
                      false] true] := by
                  rw [hm.2.2.2.2.1]
                  simp
                have hmix : m.indices = [getB up (i - 1)] := by
                  rw [hm.2.2.1]
                  simp
                have hdec1 : seg up off (i - 1) ++ up.drop (i - 1) = up.drop off :=
                  seg_append_drop up off _ hi1off (by omega)
                have hdrop1 : (up.drop off).drop m.path.length = up.drop (i - 1) := by
                  rw [hmpath, hlen1, List.drop_drop]
                  congr 1
                  omega
                have hcpl1 : commonPrefixLen (up.drop off) m.path = m.path.length := by
                  rw [hmpath]
                  conv_lhs => rw [← hdec1]
                  exact commonPrefixLen_append _ _
                have hlt1 : m.path.length < (up.drop off).length := by
                  rw [hmpath, hlen1]
                  simp [List.length_drop]
                  omega
                have hc1 : getB ((up.drop off).drop m.path.length) 0 = slashB := by
                  rw [hdrop1, getB_drop, Nat.add_zero]
                  exact hca4
                obtain ⟨f2, rfl⟩ : ∃ f2, fuel2 = f2 + 1 := ⟨fuel2 - 1, by omega⟩
                have hnext : ∀ d, coreEq d (Node.mk NodeType.wildcard [] 1 [] none 1
                    [Node.mk NodeType.wildcard (up.drop (i - 1)) 1 [] (some h1) 1 []
                      false] true) → ∀ mp3, registerF f2 d
                    ((up.drop off).drop m.path.length) ab h2 mp3 =
                      .error (dupMsg ab) := by
                  intro d hd mp3
                  rw [hdrop1]
                  obtain ⟨f3, rfl⟩ : ∃ f3, f2 = f3 + 1 := ⟨f2 - 1, by omega⟩
                  apply step_wild f3 d (up.drop (i - 1)) ab h2 mp3 (dupMsg ab)
                  · rw [hd.2.2.2.2.2]
                    rfl
                  · rw [hd.2.1]
                    simp [commonPrefixLen_nil]
                  · rw [hd.2.1]
                    simp
                    omega
                  · rw [hd.2.2.2.2.1, hd.2.1]
                    simp only [List.getD_cons_zero, Node.path_mk, List.length_nil,
                      List.drop_zero]
                    exact Nat.le_refl _
                  · rw [hd.2.2.2.2.1, hd.2.1]
                    simp only [List.getD_cons_zero, Node.path_mk, List.length_nil,
                      List.drop_zero]
                    exact List.take_length _
                  · rw [hd.2.2.2.2.1, hd.2.1]
                    refine Or.inl ?_
                    simp

                  · intro d2 hd2
                    rw [hd.2.2.2.2.1] at hd2
                    have hd2b : coreEq d2 (Node.mk NodeType.wildcard (up.drop (i - 1))
                        1 [] (some h1) 1 [] false) := hd2
                    rw [hd.2.1]
                    simp only [Node.path_mk, List.length_nil, List.drop_zero]
                    obtain ⟨f4, rfl⟩ : ∃ f4, f3 = f4 + 1 := ⟨f3 - 1, by omega⟩
                    apply step_attach f4 d2 _ ab h2 (mp3 - 1) h1
                    · rw [hd2b.2.1]
                      rfl
                    · rw [hd2b.2.2.2.1]
                      rfl
                by_cases hW : n.wildcard = true
                · apply step_wild f2 m (up.drop off) ab h2 mp2 (dupMsg ab)
                    (by rw [hmw]; exact hW) hcpl1 hlt1
                  · rw [hmch]
                    simp
                  · rw [hmch]
                    simp
                  · rw [hmch]
                    simp only [List.getD_cons_zero, Node.path_mk]
                    refine Or.inr ?_
                    simpa using hc1
                  · intro d hd
                    rw [hmch] at hd
                    simp only [List.getD_cons_zero] at hd
                    exact hnext d hd (mp2 - 1)
                · by_cases hT : n.typo = NodeType.param
                  · apply step_pslash f2 m (up.drop off) ab h2 mp2 (dupMsg ab)
                      (by rw [hmw]; simpa using hW) hcpl1 hlt1
                      (by rw [hm.1]; simpa using hT) hc1
                      (by rw [hmch]; rfl)
                    intro d hd
                    rw [hmch] at hd
                    simp only [List.getD_cons_zero] at hd
                    exact hnext d hd mp2
                  · apply step_idx f2 m (up.drop off) ab h2 mp2 (dupMsg ab) 0
                      (by rw [hmw]; simpa using hW) hcpl1 hlt1
                      (by rw [hm.1]
                          intro hcon
                          exact hT hcon.1)
                      (by rw [hmix, hc1]
                          simp [idxOf_cons, hca4])
                      (by rw [hmch]; simp)
                    intro d hd
                    rw [hmch] at hd
                    simp only [List.getD_cons_zero] at hd
                    exact hnext d hd mp2
      · rw [insertChildF, if_neg hnp, if_neg hi] at hok
        exact absurd hok (by simp)

end Httpdispatch
